import Mathlib

/-!
# The Hack assembler of `assembler.js`

A shallow embedding of `src/assembler.js`: the three mnemonic tables
(`lookupJump`, `lookupDest`, `comps`), `lookupComps`, and `assemble`, together
with the JavaScript built-ins they call (`trim`, `split`, `includes`, `slice`,
`Number`, `toString(2)`, `padStart`, `join`, property lookup).

JavaScript strings are modelled by Lean `String`s (sequences of characters; the
only lengths and indices the program takes are of ASCII text).  A result of type
`Option α` is `none` exactly when the execution leaves the modelled fragment of
the built-ins: a numeric literal that may denote a non-integer double, or a table
key that names a property inherited from `Object.prototype`.  It does not stand
for an error of the program: `assemble` has no error path and never throws.
The definitions whose name ends in `With` take the text of the inherited
properties as a parameter, so that a table lookup always has a result.
-/

namespace Assembler

/-! ## JavaScript string built-ins -/

/-- Code points of `WhiteSpace` and `LineTerminator`, the characters removed by
`String.prototype.trim` and skipped around a numeric string by `Number`. -/
def whiteSpaceCodes : List Nat :=
  [0x09, 0x0A, 0x0B, 0x0C, 0x0D, 0x20, 0xA0, 0x1680,
   0x2000, 0x2001, 0x2002, 0x2003, 0x2004, 0x2005, 0x2006, 0x2007, 0x2008, 0x2009, 0x200A,
   0x2028, 0x2029, 0x202F, 0x205F, 0x3000, 0xFEFF]

/-- Whether `c` is stripped by `trim`. -/
def isWhiteSpace (c : Char) : Bool :=
  whiteSpaceCodes.contains c.toNat

/-- The characters of a string with leading and trailing white space removed. -/
def trimChars (cs : List Char) : List Char :=
  ((cs.dropWhile isWhiteSpace).reverse.dropWhile isWhiteSpace).reverse

/-- JS `s.trim()`. -/
def trim (s : String) : String :=
  ⟨trimChars s.data⟩

/-- JS `s.split(sep)` for a one-character separator. -/
def split (s : String) (sep : Char) : List String :=
  (s.data.splitOn sep).map String.mk

/-- JS `s.includes(c)` for a one-character needle. -/
def includes (s : String) (c : Char) : Bool :=
  s.data.contains c

/-- JS `s.slice(n)` for `n ≥ 0`. -/
def slice (s : String) (n : Nat) : String :=
  ⟨s.data.drop n⟩

/-- JS `s.padStart(target, pad)` for a one-character fill string. -/
def padStart (s : String) (target : Nat) (pad : Char) : String :=
  ⟨List.replicate (target - s.data.length) pad ++ s.data⟩

/-- JS `words.join(sep)`. -/
def join (words : List String) (sep : String) : String :=
  sep.intercalate words

/-! ## JavaScript numbers -/

/-- The values `Number(s)` can take inside the modelled fragment: a finite double
whose value is an integer (`+0` and `-0` both as `0`, they print alike), an
infinity, or `NaN`. -/
inductive JSNumber where
  | int (z : Int)
  | infinity (negative : Bool)
  | nan
  deriving DecidableEq, Repr

/-- Value of a digit character in the given base (letters count from ten, in
either case). -/
def digitValue (base : Nat) (c : Char) : Option Nat :=
  let v :=
    if 48 ≤ c.toNat ∧ c.toNat ≤ 57 then c.toNat - 48
    else if 97 ≤ c.toNat ∧ c.toNat ≤ 122 then c.toNat - 87
    else if 65 ≤ c.toNat ∧ c.toNat ≤ 90 then c.toNat - 55
    else base
  if v < base then some v else none

/-- Whether every character is a digit of the base. -/
def allDigits (base : Nat) (cs : List Char) : Bool :=
  cs.all fun c => (digitValue base c).isSome

/-- Mathematical value of a digit sequence, most significant digit first. -/
def digitsValue (base : Nat) (cs : List Char) : Nat :=
  cs.foldl (fun acc c => base * acc + (digitValue base c).getD 0) 0

/-- Number of binary digits of `n` (one for `0`). -/
def bitLength (n : Nat) : Nat :=
  (Nat.toDigits 2 n).length

/-- The double nearest to the natural number `n` (ties to even), or `Infinity`
when `n` rounds past the largest finite double: a double keeps the 53 leading bits. -/
def roundToDouble (n : Nat) : JSNumber :=
  if n < 2 ^ 53 then .int n
  else
    let k := bitLength n - 53
    let q := n / 2 ^ k
    let r := n % 2 ^ k
    let half := 2 ^ (k - 1)
    let m := if half < r ∨ (r = half ∧ q % 2 = 1) then q + 1 else q
    if 1024 < bitLength (m * 2 ^ k) then .infinity false else .int (m * 2 ^ k)

/-- Negation of a JS number. -/
def JSNumber.neg : JSNumber → JSNumber
  | .int z => .int (-z)
  | .infinity b => .infinity (!b)
  | .nan => .nan

/-- Characters that can occur in a decimal literal with a fraction or an exponent. -/
def floatChars : List Char :=
  ['0', '1', '2', '3', '4', '5', '6', '7', '8', '9', '.', 'e', 'E', '+', '-']

/-- An unsigned decimal literal: `Infinity`, or a run of decimal digits.  A text
made only of `floatChars` may be a literal with a fraction or an exponent and is left
unmodelled (`none`); any other text is not a numeric literal (`NaN`). -/
def unsignedDecimal (cs : List Char) : Option JSNumber :=
  if cs = "Infinity".data then some (.infinity false)
  else if cs = [] then some .nan
  else if allDigits 10 cs then some (roundToDouble (digitsValue 10 cs))
  else if cs.all floatChars.contains then none
  else some .nan

/-- A numeric string after its white space is trimmed. -/
def strNumericLiteral (cs : List Char) : Option JSNumber :=
  match cs with
  | [] => some (.int 0)
  | '+' :: rest => unsignedDecimal rest
  | '-' :: rest => (unsignedDecimal rest).map JSNumber.neg
  | '0' :: p :: ds =>
    let base := if p = 'x' ∨ p = 'X' then 16
      else if p = 'o' ∨ p = 'O' then 8
      else if p = 'b' ∨ p = 'B' then 2
      else 0
    if base = 0 then unsignedDecimal cs
    else if ds ≠ [] ∧ allDigits base ds then some (roundToDouble (digitsValue base ds))
    else some .nan
  | _ => unsignedDecimal cs

/-- JS `Number(s)` for a string argument. -/
def Number (s : String) : Option JSNumber :=
  strNumericLiteral (trimChars s.data)

/-- JS `value.toString(2)`. -/
def toString2 : JSNumber → String
  | .int z => if z < 0 then ⟨'-' :: Nat.toDigits 2 z.natAbs⟩ else ⟨Nat.toDigits 2 z.natAbs⟩
  | .infinity b => if b then "-Infinity" else "Infinity"
  | .nan => "NaN"

/-! ## Objects used as tables -/

/-- String-keyed properties every object literal inherits from `Object.prototype`. -/
def objectPrototypeKeys : List String :=
  ["constructor", "__proto__", "hasOwnProperty", "isPrototypeOf", "propertyIsEnumerable",
   "toLocaleString", "toString", "valueOf", "__defineGetter__", "__defineSetter__",
   "__lookupGetter__", "__lookupSetter__"]

/-- JS `obj[key]` converted to a string by concatenation: the own property when
there is one, the text `undefined` for a key that is absent, and unmodelled for
a key that names an inherited property. -/
def getProp (obj : List (String × String)) (key : String) : Option String :=
  match obj.lookup key with
  | some v => some v
  | none => if key ∈ objectPrototypeKeys then none else some "undefined"

/-! ## The tables of `assembler.js` -/

/-- The table `lookupJump`. -/
def lookupJump : List (String × String) :=
  [("JGT", "001"),
   ("JEQ", "010"),
   ("JGE", "011"),
   ("JLT", "100"),
   ("JNE", "101"),
   ("JLE", "110"),
   ("JMP", "111")]

/-- The table `lookupDest`. -/
def lookupDest : List (String × String) :=
  [("M", "001"),
   ("D", "010"),
   ("MD", "011"),
   ("A", "100"),
   ("AM", "101"),
   ("AD", "110"),
   ("AMD", "111")]

/-- The table `comps`. -/
def comps : List (String × String) :=
  [("0", "101010"),
   ("1", "111111"),
   ("-1", "111010"),
   ("D", "001100"),
   ("A", "110000"),
   ("!D", "001101"),
   ("!A", "110001"),
   ("-D", "001111"),
   ("-A", "110011"),
   ("D+1", "011111"),
   ("A+1", "110111"),
   ("D-1", "001110"),
   ("A-1", "110010"),
   ("D+A", "000010"),
   ("D-A", "010011"),
   ("A-D", "000111"),
   ("D&A", "000000"),
   ("D|A", "010101"),
   ("M", "110000"),
   ("!M", "110001"),
   ("-M", "110011"),
   ("M+1", "110111"),
   ("M-1", "110010"),
   ("D+M", "000010"),
   ("D-M", "010011"),
   ("M-D", "000111"),
   ("D&M", "000000"),
   ("D|M", "010101")]

/-! ## `lookupComps` and `assemble` -/

/-- The function `lookupComps`. -/
def lookupComps (query : String) : Option String :=
  if includes query 'M' then
    (getProp comps query).map fun bits => "1" ++ bits
  else
    (getProp comps query).map fun bits => "0" ++ bits

/-- The first `if` of the `forEach` callback: a line that starts with `@` pushes
the binary rendering of the number after it, padded to 16 characters. -/
def ifAddress (line : String) (binary : List String) : Option (List String) :=
  -- deal with A-instructions
  if line.data.head? = some '@' then do
    let value ← Number (slice line 1)
    let str := padStart (toString2 value) 16 '0'
    pure (binary ++ [str])
  else
    pure binary

/-- The second `if` of the callback, on the state `(str, binary)`: a line that
includes `=` extends `str` by the computation bits, the destination bits and `000`,
and pushes it. -/
def ifAssign (line : String) (st : String × List String) : Option (String × List String) :=
  if includes line '=' then
    -- typical c-instruction (ALU operation)
    match split line '=' with
    | dest :: operation :: _ => do
      let str := st.1 ++ (← lookupComps operation)
      let str := str ++ (← getProp lookupDest dest)
      -- no jump
      let str := str ++ "000"
      pure (str, st.2 ++ [str])
    | _ => none
  else
    pure st

/-- The third `if` of the callback, on the state `(str, binary)` left by the
second: a line that includes `;` extends `str` by the computation bits, `000` and
the jump bits, and pushes it. -/
def ifJump (line : String) (st : String × List String) : Option (String × List String) :=
  if includes line ';' then
    match split line ';' with
    | op :: jump :: _ => do
      let str := st.1 ++ (← lookupComps op)
      -- dest
      let str := str ++ "000"
      let str := str ++ (← getProp lookupJump jump)
      pure (str, st.2 ++ [str])
    | _ => none
  else
    pure st

/-- The body of the `forEach` callback in `assemble`, from the array `binary`
before the line to the array after it: the three `if` statements in sequence,
with `str` set to `111` between the first and the second.  (The `match` fallbacks
are not reached: a line that includes the separator splits into two parts or more.) -/
def forEachBody (binary : List String) (line : String) : Option (List String) := do
  let binary ← ifAddress line binary
  let st ← ifAssign line ("111", binary)
  let st ← ifJump line st
  pure st.2

/-- The function `assemble`. -/
def assemble (assembly : String) : Option String := do
  let lines := (split assembly '\n').map trim
  let binary ← lines.foldlM forEachBody []
  pure (join binary "\n")


/-! ## Vocabulary of the statements -/

/-- The character of a bit. -/
def bitChar (b : Bool) : Char :=
  if b then '1' else '0'

/-- Whether every character of the word is `0` or `1`. -/
def isBinaryWord (w : String) : Bool :=
  w.data.all fun c => c = '0' || c = '1'

/-- Unsigned value of a word over `0`/`1`, most significant bit first. -/
def binaryValue (w : String) : Nat :=
  w.data.foldl (fun acc c => 2 * acc + (if c = '1' then 1 else 0)) 0

/-- The comparison with zero that a jump mnemonic names. -/
def jumpCondition (j : String) (x : Int) : Bool :=
  if j = "JGT" then 0 < x
  else if j = "JEQ" then x = 0
  else if j = "JGE" then 0 ≤ x
  else if j = "JLT" then x < 0
  else if j = "JNE" then x ≠ 0
  else if j = "JLE" then x ≤ 0
  else if j = "JMP" then true
  else false

/-- The mnemonic with every `M` replaced by `A`. -/
def replaceMByA (c : String) : String :=
  ⟨c.data.map fun ch => if ch = 'M' then 'A' else ch⟩

/-- A blank line: nothing but white space, and no newline. -/
def isBlankLine (l : String) : Bool :=
  l.data.all fun c => isWhiteSpace c && c != '\n'

/-- A well-formed source line: blank, `@` and the decimal literal of a number in
`0..65535`, `dest=comp` or `comp;jump` with mnemonics of the tables. -/
def WellFormedLine (l : String) : Prop :=
  isBlankLine l = true ∨
    (∃ v : Nat, v ≤ 65535 ∧ l = "@" ++ toString v) ∨
    (∃ d c : String, d ∈ lookupDest.map Prod.fst ∧ c ∈ comps.map Prod.fst ∧
      l = d ++ "=" ++ c) ∨
    (∃ c j : String, c ∈ comps.map Prod.fst ∧ j ∈ lookupJump.map Prod.fst ∧
      l = c ++ ";" ++ j)

/-- The array `binary` of `assemble` when the `forEach` is over: the words pushed
for all the lines, which `assemble` then joins. -/
def emittedWords (assembly : String) : Option (List String) :=
  ((split assembly '\n').map trim).foldlM forEachBody []

/-- The built-in program `assembly`, used when no file is named on the command line. -/
def assembly : String :=
  "@42\n    D=A\n    @0 \n    D;JGT"

/-- The text that `obj[key]` contributes to a word when `key` does not name an
inherited property: the own property, or `undefined`. -/
def propText (obj : List (String × String)) (key : String) : String :=
  (obj.lookup key).getD "undefined"

/-- A token of a computation line: no white space, no `=`, no `;`, no `@`. -/
def isToken (s : String) : Bool :=
  s.data.all fun ch => !isWhiteSpace ch && ch != '=' && ch != ';' && ch != '@'

/-- A valid computation line: `dest=comp` or `comp;jump` with mnemonics of the tables. -/
def IsComputationLine (l : String) : Prop :=
  (∃ d c : String, d ∈ lookupDest.map Prod.fst ∧ c ∈ comps.map Prod.fst ∧
      l = d ++ "=" ++ c) ∨
    (∃ c j : String, c ∈ comps.map Prod.fst ∧ j ∈ lookupJump.map Prod.fst ∧
      l = c ++ ";" ++ j)

/-- Bitwise negation of a 16-bit value: every one of the 16 bits is flipped. -/
def not16 (x : Nat) : Nat :=
  x ^^^ (2 ^ 16 - 1)

/-- The ALU rule for the control bits `zD nD zA nA f no` on 16-bit values `x` (the
D register) and `y` (the A register or the memory cell M): `x` becomes 0 if `zD`,
then is negated if `nD`; the same for `y` with `zA`, `nA`; the output is the sum
modulo `2^16` if `f`, else the bitwise and; it is negated if `no`. -/
def alu (zD nD zA nA f no : Bool) (x y : Nat) : Nat :=
  let x := if zD then 0 else x
  let x := if nD then not16 x else x
  let y := if zA then 0 else y
  let y := if nA then not16 y else y
  let out := if f then (x + y) % 2 ^ 16 else x &&& y
  if no then not16 out else out

/-- The ALU under a 6-character pattern read as `zD nD zA nA f no`. -/
def aluOfPattern (bits : String) (x y : Nat) : Option Nat :=
  match bits.data.map fun c => decide (c = '1') with
  | [zD, nD, zA, nA, f, no] => some (alu zD nD zA nA f no x y)
  | _ => none

/-- The integer a computation mnemonic denotes when D holds `x` and the second
operand (A, or M in the M forms) holds `y`. -/
def denotes (c : String) (x y : Nat) : Option Int :=
  match c with
  | "0" => some 0
  | "1" => some 1
  | "-1" => some (-1)
  | "D" => some x
  | "A" | "M" => some y
  | "!D" => some (not16 x)
  | "!A" | "!M" => some (not16 y)
  | "-D" => some (-(x : Int))
  | "-A" | "-M" => some (-(y : Int))
  | "D+1" => some ((x : Int) + 1)
  | "A+1" | "M+1" => some ((y : Int) + 1)
  | "D-1" => some ((x : Int) - 1)
  | "A-1" | "M-1" => some ((y : Int) - 1)
  | "D+A" | "D+M" => some ((x : Int) + y)
  | "D-A" | "D-M" => some ((x : Int) - y)
  | "A-D" | "M-D" => some ((y : Int) - x)
  | "D&A" | "D&M" => some ((x &&& y : Nat) : Int)
  | "D|A" | "D|M" => some ((x ||| y : Nat) : Int)
  | _ => none

/-! ### Inherited properties made explicit

`getProp` leaves the text of an inherited property unmodelled.  The definitions
below are `getProp`, `lookupComps`, the second and third `if` of the callback, the
callback and `emittedWords` once more, with that text supplied by a function
`inherited` of the key (in JS every inherited property converts to some string
under concatenation).  They agree with the definitions above wherever those
return a result, and a table lookup no longer has a case without a result. -/

/-- JS `obj[key]` converted to a string by concatenation, the text of an inherited
property being `inherited key`. -/
def getPropWith (inherited : String → String) (obj : List (String × String))
    (key : String) : String :=
  match obj.lookup key with
  | some v => v
  | none => if key ∈ objectPrototypeKeys then inherited key else "undefined"

/-- The function `lookupComps`, over `getPropWith`. -/
def lookupCompsWith (inherited : String → String) (query : String) : String :=
  if includes query 'M' then
    "1" ++ getPropWith inherited comps query
  else
    "0" ++ getPropWith inherited comps query

/-- The second `if` of the callback, over `getPropWith`. -/
def ifAssignWith (inherited : String → String) (line : String)
    (st : String × List String) : Option (String × List String) :=
  if includes line '=' then
    match split line '=' with
    | dest :: operation :: _ =>
      let str := st.1 ++ lookupCompsWith inherited operation
      let str := str ++ getPropWith inherited lookupDest dest
      let str := str ++ "000"
      some (str, st.2 ++ [str])
    | _ => none
  else
    some st

/-- The third `if` of the callback, over `getPropWith`. -/
def ifJumpWith (inherited : String → String) (line : String)
    (st : String × List String) : Option (String × List String) :=
  if includes line ';' then
    match split line ';' with
    | op :: jump :: _ =>
      let str := st.1 ++ lookupCompsWith inherited op
      let str := str ++ "000"
      let str := str ++ getPropWith inherited lookupJump jump
      some (str, st.2 ++ [str])
    | _ => none
  else
    some st

/-- The body of the `forEach` callback, over `getPropWith`. -/
def forEachBodyWith (inherited : String → String) (binary : List String)
    (line : String) : Option (List String) := do
  let binary ← ifAddress line binary
  let st ← ifAssignWith inherited line ("111", binary)
  let st ← ifJumpWith inherited line st
  pure st.2

/-- The array `binary` when the `forEach` is over, over `getPropWith`. -/
def emittedWordsWith (inherited : String → String) (assembly : String) :
    Option (List String) :=
  ((split assembly '\n').map trim).foldlM (forEachBodyWith inherited) []

/-! ## Table lemmas -/

theorem mem_of_lookup {k v : String} {l : List (String × String)}
    (h : l.lookup k = some v) : (k, v) ∈ l := by
  induction l with
  | nil => simp at h
  | cons p l ih =>
    obtain ⟨a, b⟩ := p
    by_cases hk : k = a
    · subst hk
      simp [List.lookup] at h
      simp [h]
    · have hne : (k == a) = false := by simpa using hk
      simp only [List.lookup, hne] at h
      exact List.mem_cons_of_mem _ (ih h)

theorem destComp_table : ∀ p ∈ lookupDest, ∀ q ∈ comps,
    assemble (p.1 ++ "=" ++ q.1) =
        some ("111" ++ (if 'M' ∈ q.1.data then "1" else "0") ++ q.2 ++ p.2 ++ "000") ∧
      ("111" ++ (if 'M' ∈ q.1.data then "1" else "0") ++ q.2 ++ p.2 ++ "000").length = 16 := by
  decide

theorem compJump_table : ∀ q ∈ comps, ∀ p ∈ lookupJump,
    assemble (q.1 ++ ";" ++ p.1) =
        some ("111" ++ (if 'M' ∈ q.1.data then "1" else "0") ++ q.2 ++ "000" ++ p.2) ∧
      ("111" ++ (if 'M' ∈ q.1.data then "1" else "0") ++ q.2 ++ "000" ++ p.2).length = 16 := by
  decide

theorem lookupDest_injective_table :
    ∀ p ∈ lookupDest, ∀ q ∈ lookupDest, p.2 = q.2 → p.1 = q.1 := by
  decide

theorem lookupJump_injective_table :
    ∀ p ∈ lookupJump, ∀ q ∈ lookupJump, p.2 = q.2 → p.1 = q.1 := by
  decide

/-! ## Computation instructions -/

/-- C1: for a destination `d` of `lookupDest` and a computation `c` of `comps`, the
line `d=c` assembles to the 16-character word `111`, selector bit, `comps[c]`,
`lookupDest[d]`, `000`, the selector bit being `1` exactly when `c` contains `M`. -/
theorem assemble_dest_comp (d db c cb : String)
    (hd : lookupDest.lookup d = some db) (hc : comps.lookup c = some cb) :
    assemble (d ++ "=" ++ c) =
        some ("111" ++ (if 'M' ∈ c.data then "1" else "0") ++ cb ++ db ++ "000") ∧
      ("111" ++ (if 'M' ∈ c.data then "1" else "0") ++ cb ++ db ++ "000").length = 16 :=
  destComp_table (d, db) (mem_of_lookup hd) (c, cb) (mem_of_lookup hc)

theorem assemble_dest_comp_witness :
    lookupDest.lookup "AM" = some "101" ∧ comps.lookup "D+M" = some "000010" ∧
      assemble ("AM" ++ "=" ++ "D+M") =
        some ("111" ++ (if 'M' ∈ "D+M".data then "1" else "0") ++ "000010" ++ "101" ++ "000") ∧
      ("111" ++ (if 'M' ∈ "D+M".data then "1" else "0") ++ "000010" ++ "101" ++ "000").length
        = 16 :=
  ⟨by decide, by decide, assemble_dest_comp "AM" "101" "D+M" "000010" (by decide) (by decide)⟩

/-- C2: for a computation `c` of `comps` and a jump `j` of `lookupJump`, the line
`c;j` assembles to the 16-character word `111`, selector bit, `comps[c]`, `000`,
`lookupJump[j]`, the selector bit being `1` exactly when `c` contains `M`. -/
theorem assemble_comp_jump (c cb j jb : String)
    (hc : comps.lookup c = some cb) (hj : lookupJump.lookup j = some jb) :
    assemble (c ++ ";" ++ j) =
        some ("111" ++ (if 'M' ∈ c.data then "1" else "0") ++ cb ++ "000" ++ jb) ∧
      ("111" ++ (if 'M' ∈ c.data then "1" else "0") ++ cb ++ "000" ++ jb).length = 16 :=
  compJump_table (c, cb) (mem_of_lookup hc) (j, jb) (mem_of_lookup hj)

theorem assemble_comp_jump_witness :
    comps.lookup "M-1" = some "110010" ∧ lookupJump.lookup "JNE" = some "101" ∧
      assemble ("M-1" ++ ";" ++ "JNE") =
        some ("111" ++ (if 'M' ∈ "M-1".data then "1" else "0") ++ "110010" ++ "000" ++ "101") ∧
      ("111" ++ (if 'M' ∈ "M-1".data then "1" else "0") ++ "110010" ++ "000" ++ "101").length
        = 16 :=
  ⟨by decide, by decide, assemble_comp_jump "M-1" "110010" "JNE" "101" (by decide) (by decide)⟩

/-! ## The mnemonic tables -/

/-- C5: the computation mnemonics that contain `M` are the ten listed ones, and for
each of them `lookupComps` of the `M` form and of the form with `A` for `M` are
7 characters long, agree on the last 6, and start with `1` and `0` respectively. -/
theorem lookupComps_M_form_A_form :
    (comps.map Prod.fst).filter (fun c => c.data.contains 'M') =
        ["M", "!M", "-M", "M+1", "M-1", "D+M", "D-M", "M-D", "D&M", "D|M"] ∧
      ∀ c ∈ ["M", "!M", "-M", "M+1", "M-1", "D+M", "D-M", "M-D", "D&M", "D|M"],
        ∃ m a : String, lookupComps c = some m ∧ lookupComps (replaceMByA c) = some a ∧
          m.length = 7 ∧ a.length = 7 ∧ m.data.drop 1 = a.data.drop 1 ∧
          m.data.head? = some '1' ∧ a.data.head? = some '0' := by
  refine ⟨by decide, ?_⟩
  intro c hc
  simp only [List.mem_cons, List.mem_singleton, List.not_mem_nil, or_false] at hc
  rcases hc with rfl | rfl | rfl | rfl | rfl | rfl | rfl | rfl | rfl | rfl
  all_goals exact ⟨_, _, rfl, rfl, by decide⟩

/-- C6: `lookupDest` and `lookupJump` are injective: two mnemonics of the same
table with the same 3-bit pattern are the same mnemonic. -/
theorem lookupDest_lookupJump_injective :
    (∀ d₁ d₂ bits : String, lookupDest.lookup d₁ = some bits →
        lookupDest.lookup d₂ = some bits → d₁ = d₂) ∧
      (∀ j₁ j₂ bits : String, lookupJump.lookup j₁ = some bits →
        lookupJump.lookup j₂ = some bits → j₁ = j₂) ∧
      lookupDest.length = 7 ∧ lookupJump.length = 7 :=
  ⟨fun d₁ d₂ bits h₁ h₂ =>
      lookupDest_injective_table (d₁, bits) (mem_of_lookup h₁) (d₂, bits) (mem_of_lookup h₂) rfl,
    fun j₁ j₂ bits h₁ h₂ =>
      lookupJump_injective_table (j₁, bits) (mem_of_lookup h₁) (j₂, bits) (mem_of_lookup h₂) rfl,
    rfl, rfl⟩

theorem destBits_table : ∀ p ∈ lookupDest,
    p.2 = ⟨[bitChar (p.1.data.contains 'A'), bitChar (p.1.data.contains 'D'),
      bitChar (p.1.data.contains 'M')]⟩ := by
  decide

theorem destCover_table : ∀ a d m : Bool, (a || d || m) = true →
    ∃ p ∈ lookupDest, (p.1.data.all fun c => c = 'A' || c = 'D' || c = 'M') = true ∧
      p.1.data.contains 'A' = a ∧ p.1.data.contains 'D' = d ∧ p.1.data.contains 'M' = m := by
  decide

/-- C7: for a destination `d` of `lookupDest` the pattern `lookupDest[d]` has three
bits, the first set exactly when `d` contains `A`, the second when it contains `D`,
the third when it contains `M`; and every non-empty subset of `A`, `D`, `M` is the
set of letters of one of the table's mnemonics. -/
theorem lookupDest_bits (d bits : String) (h : lookupDest.lookup d = some bits) :
    bits = ⟨[bitChar (d.data.contains 'A'), bitChar (d.data.contains 'D'),
        bitChar (d.data.contains 'M')]⟩ ∧
      ∀ a d m : Bool, (a || d || m) = true →
        ∃ p ∈ lookupDest, (p.1.data.all fun c => c = 'A' || c = 'D' || c = 'M') = true ∧
          p.1.data.contains 'A' = a ∧ p.1.data.contains 'D' = d ∧ p.1.data.contains 'M' = m :=
  ⟨destBits_table (d, bits) (mem_of_lookup h), destCover_table⟩

theorem lookupDest_bits_witness :
    lookupDest.lookup "MD" = some "011" ∧
      ("011" = (⟨[bitChar ("MD".data.contains 'A'), bitChar ("MD".data.contains 'D'),
        bitChar ("MD".data.contains 'M')]⟩ : String) ∧
      ∀ a d m : Bool, (a || d || m) = true →
        ∃ p ∈ lookupDest, (p.1.data.all fun c => c = 'A' || c = 'D' || c = 'M') = true ∧
          p.1.data.contains 'A' = a ∧ p.1.data.contains 'D' = d ∧
          p.1.data.contains 'M' = m) :=
  ⟨by decide, lookupDest_bits "MD" "011" (by decide)⟩

/-- C8: for a jump `j` of `lookupJump` the pattern `lookupJump[j]` is three bits
`lt eq gt`, not all zero, and for every integer `x` the condition `j` names holds
exactly when `lt` is set and `x < 0`, or `eq` is set and `x = 0`, or `gt` is set
and `x > 0`. -/
theorem lookupJump_condition (j bits : String) (h : lookupJump.lookup j = some bits) :
    ∃ lt eq gt : Bool, bits = ⟨[bitChar lt, bitChar eq, bitChar gt]⟩ ∧ bits ≠ "000" ∧
      ∀ x : Int, jumpCondition j x = true ↔
        (lt = true ∧ x < 0) ∨ (eq = true ∧ x = 0) ∨ (gt = true ∧ 0 < x) := by
  have hm := mem_of_lookup h
  simp only [lookupJump, List.mem_cons, Prod.mk.injEq, List.mem_singleton, List.not_mem_nil,
    or_false] at hm
  rcases hm with ⟨rfl, rfl⟩ | ⟨rfl, rfl⟩ | ⟨rfl, rfl⟩ | ⟨rfl, rfl⟩ | ⟨rfl, rfl⟩ | ⟨rfl, rfl⟩ |
    ⟨rfl, rfl⟩
  · exact ⟨false, false, true, by decide, by decide, fun x => by simp [jumpCondition]⟩
  · exact ⟨false, true, false, by decide, by decide, fun x => by simp [jumpCondition]⟩
  · exact ⟨false, true, true, by decide, by decide, fun x => by
      simp [jumpCondition]; omega⟩
  · exact ⟨true, false, false, by decide, by decide, fun x => by simp [jumpCondition]⟩
  · exact ⟨true, false, true, by decide, by decide, fun x => by
      simp [jumpCondition]⟩
  · exact ⟨true, true, false, by decide, by decide, fun x => by
      simp [jumpCondition]; omega⟩
  · exact ⟨true, true, true, by decide, by decide, fun x => by
      simp [jumpCondition]; omega⟩

theorem lookupJump_condition_witness :
    lookupJump.lookup "JGE" = some "011" ∧
      ∃ lt eq gt : Bool, "011" = (⟨[bitChar lt, bitChar eq, bitChar gt]⟩ : String) ∧
        "011" ≠ "000" ∧
        ∀ x : Int, jumpCondition "JGE" x = true ↔
          (lt = true ∧ x < 0) ∨ (eq = true ∧ x = 0) ∨ (gt = true ∧ 0 < x) :=
  ⟨by decide, lookupJump_condition "JGE" "011" (by decide)⟩

/-! ## End-to-end scenarios -/

/-- C9: `@2`, `D=A`, `@0`, `D;JGT` and `D=D+A` assemble to `0000000000000010`,
`1110110000010000`, `0000000000000000`, `1110001100000001` and `1110000010010000`. -/
theorem assemble_scenarios :
    assemble "@2" = some "0000000000000010" ∧
      assemble "D=A" = some "1110110000010000" ∧
      assemble "@0" = some "0000000000000000" ∧
      assemble "D;JGT" = some "1110001100000001" ∧
      assemble "D=D+A" = some "1110000010010000" := by
  decide

/-- C10, as stated, fails: `M=D` does not assemble to `1111000100001000`. -/
theorem assemble_M_eq_D_not_spec_word :
    assemble "M=D" ≠ some "1111000100001000" := by
  decide

/-- C10, amended: `M=D` assembles to `1110001100001000`, that is `111`, selector
bit `0` (the computation `D` has no `M`), `comps[D] = 001100`, `lookupDest[M] = 001`,
`000`. -/
theorem assemble_M_eq_D :
    assemble "M=D" = some "1110001100001000" ∧
      lookupComps "D" = some "0001100" ∧ getProp lookupDest "M" = some "001" := by
  decide


/-! ## Decimal and binary digits -/

theorem digitValue_digitChar (b k : Nat) (hk : k < b) (hb : b ≤ 10) :
    digitValue b (Nat.digitChar k) = some k := by
  have hk10 : k < 10 := by omega
  interval_cases k <;> simp [digitValue, Nat.digitChar] <;> omega

theorem digitsValue_append_singleton (b : Nat) (pre : List Char) (d : Char) :
    digitsValue b (pre ++ [d]) = b * digitsValue b pre + (digitValue b d).getD 0 := by
  simp [digitsValue, List.foldl_append]

theorem toDigitsCore_spec (b : Nat) (hb2 : 2 ≤ b) (hb10 : b ≤ 10) :
    ∀ (fuel n : Nat) (ds : List Char), n < fuel →
      ∃ pre, Nat.toDigitsCore b fuel n ds = pre ++ ds ∧ pre ≠ [] ∧
        allDigits b pre = true ∧ digitsValue b pre = n := by
  intro fuel
  induction fuel with
  | zero => intro n ds h; omega
  | succ fuel ih =>
    intro n ds h
    have hmod : n % b < b := Nat.mod_lt _ (by omega)
    have hd := digitValue_digitChar b (n % b) hmod hb10
    by_cases h0 : n / b = 0
    · have hnb : n < b := by
        by_contra hge
        have := Nat.div_pos (not_lt.mp hge) (by omega : 0 < b)
        omega
      rw [Nat.mod_eq_of_lt hnb] at hd
      refine ⟨[Nat.digitChar n], by simp [Nat.toDigitsCore, h0, Nat.mod_eq_of_lt hnb],
        by simp, by simp [allDigits, hd], ?_⟩
      simp [digitsValue, hd]
    · have hlt : n / b < fuel := by
        have : n / b < n := Nat.div_lt_self (by
          rcases Nat.eq_zero_or_pos n with hz | hz
          · simp [hz] at h0
          · exact hz) hb2
        omega
      obtain ⟨pre, hpre, -, hall, hval⟩ := ih (n / b) (Nat.digitChar (n % b) :: ds) hlt
      refine ⟨pre ++ [Nat.digitChar (n % b)], by simp [Nat.toDigitsCore, h0, hpre], by simp,
        ?_, ?_⟩
      · simp only [allDigits, List.all_append, List.all_cons, List.all_nil, Bool.and_true,
          Bool.and_eq_true] at hall ⊢
        exact ⟨hall, by simp [hd]⟩
      · rw [digitsValue_append_singleton, hval, hd]
        simpa using Nat.div_add_mod n b

theorem toDigits_spec (b n : Nat) (hb2 : 2 ≤ b) (hb10 : b ≤ 10) :
    Nat.toDigits b n ≠ [] ∧ allDigits b (Nat.toDigits b n) = true ∧
      digitsValue b (Nat.toDigits b n) = n := by
  obtain ⟨pre, hpre, hne, hall, hval⟩ := toDigitsCore_spec b hb2 hb10 (n + 1) n [] (by omega)
  have : Nat.toDigits b n = pre := by simpa [Nat.toDigits] using hpre
  rw [this]
  exact ⟨hne, hall, hval⟩

theorem mem_decimal_of_digitValue {c : Char} (h : (digitValue 10 c).isSome = true) :
    c ∈ ['0', '1', '2', '3', '4', '5', '6', '7', '8', '9'] := by
  obtain ⟨n, hn⟩ : ∃ n, c.toNat = n := ⟨_, rfl⟩
  have hc : c = Char.ofNat n := by rw [← hn, Char.ofNat_toNat]
  by_cases h1 : 48 ≤ n ∧ n ≤ 57
  · obtain ⟨h48, h57⟩ := h1
    subst hc
    interval_cases n <;> decide
  · exfalso
    simp only [digitValue, hn, h1, if_false] at h
    split_ifs at h <;> simp at h <;> omega

theorem mem_binary_of_digitValue {c : Char} (h : (digitValue 2 c).isSome = true) :
    c = '0' ∨ c = '1' := by
  obtain ⟨n, hn⟩ : ∃ n, c.toNat = n := ⟨_, rfl⟩
  have hc : c = Char.ofNat n := by rw [← hn, Char.ofNat_toNat]
  by_cases h1 : 48 ≤ n ∧ n ≤ 49
  · obtain ⟨h48, h49⟩ := h1
    subst hc
    interval_cases n <;> decide
  · exfalso
    simp only [digitValue, hn] at h
    split_ifs at h <;> simp at h <;> omega

/-! ## Lines without white space or newlines -/

theorem trimChars_eq_self {cs : List Char} (h : ∀ c ∈ cs, isWhiteSpace c = false) :
    trimChars cs = cs := by
  unfold trimChars
  have h1 : cs.dropWhile isWhiteSpace = cs := by
    cases cs with
    | nil => rfl
    | cons c t => simp [List.dropWhile, h c (List.mem_cons_self _ _)]
  have h2 : cs.reverse.dropWhile isWhiteSpace = cs.reverse := by
    cases hr : cs.reverse with
    | nil => rfl
    | cons c t =>
      have hc : c ∈ cs := by
        rw [← List.mem_reverse, hr]
        exact List.mem_cons_self _ _
      simp [List.dropWhile, h c hc]
  rw [h1, h2, List.reverse_reverse]

theorem trimChars_eq_nil {cs : List Char} (h : ∀ c ∈ cs, isWhiteSpace c = true) :
    trimChars cs = [] := by
  unfold trimChars
  rw [List.dropWhile_eq_nil_iff.mpr h]
  rfl

theorem split_newline_single (l : String) (h : '\n' ∉ l.data) : split l '\n' = [l] := by
  have hx : ∀ cs ∈ [l.data], '\n' ∉ cs := by simpa using h
  have hs : l.data.splitOn '\n' = [l.data] := by
    simpa [List.intercalate] using List.splitOn_intercalate [l.data] '\n' hx (by simp)
  simp [split, hs]

theorem assemble_single_line (l : String) (h : '\n' ∉ l.data) :
    assemble l = (forEachBody [] (trim l)).map fun binary => join binary "\n" := by
  simp only [assemble, split_newline_single l h, List.map_cons, List.map_nil, List.foldlM_cons,
    List.foldlM_nil]
  cases forEachBody [] (trim l) <;> rfl

theorem decimal_digit_facts : ∀ c ∈ ['0', '1', '2', '3', '4', '5', '6', '7', '8', '9'],
    isWhiteSpace c = false ∧ c ≠ '=' ∧ c ≠ ';' ∧ c ≠ '\n' ∧ c ≠ '+' ∧ c ≠ '-' ∧ c ≠ 'x' ∧
      c ≠ 'X' ∧ c ≠ 'o' ∧ c ≠ 'O' ∧ c ≠ 'b' ∧ c ≠ 'B' ∧ c ≠ 'I' := by
  decide

theorem allDigits_facts {ds : List Char} (hd : allDigits 10 ds = true) : ∀ c ∈ ds,
    isWhiteSpace c = false ∧ c ≠ '=' ∧ c ≠ ';' ∧ c ≠ '\n' ∧ c ≠ '+' ∧ c ≠ '-' ∧ c ≠ 'x' ∧
      c ≠ 'X' ∧ c ≠ 'o' ∧ c ≠ 'O' ∧ c ≠ 'b' ∧ c ≠ 'B' ∧ c ≠ 'I' := by
  intro c hc
  simp only [allDigits, List.all_eq_true] at hd
  exact decimal_digit_facts c (mem_decimal_of_digitValue (hd c hc))

theorem unsignedDecimal_digits {ds : List Char} (hne : ds ≠ [])
    (hd : allDigits 10 ds = true) :
    unsignedDecimal ds = some (roundToDouble (digitsValue 10 ds)) := by
  have hI : ds ≠ "Infinity".data := by
    intro h
    rw [h] at hd
    exact absurd hd (by decide)
  simp [unsignedDecimal, hI, hne, hd]

theorem strNumericLiteral_digits {ds : List Char} (hne : ds ≠ [])
    (hd : allDigits 10 ds = true) :
    strNumericLiteral ds = some (roundToDouble (digitsValue 10 ds)) := by
  have hu := unsignedDecimal_digits hne hd
  have hf := allDigits_facts hd
  unfold strNumericLiteral
  split
  · exact absurd rfl hne
  · exact absurd rfl (hf '+' (List.mem_cons_self _ _)).2.2.2.2.1
  · exact absurd rfl (hf '-' (List.mem_cons_self _ _)).2.2.2.2.2.1
  · rename_i p rest
    have hp := hf p (List.mem_cons_of_mem _ (List.mem_cons_self _ _))
    simp [hp, hu]
  · exact hu

theorem forEachBody_address (binary : List String) {ds : List Char} (hne : ds ≠ [])
    (hd : allDigits 10 ds = true) :
    forEachBody binary ⟨'@' :: ds⟩ =
      some (binary ++ [padStart (toString2 (roundToDouble (digitsValue 10 ds))) 16 '0']) := by
  have hf := allDigits_facts hd
  have hN : Number (slice ⟨'@' :: ds⟩ 1) = some (roundToDouble (digitsValue 10 ds)) := by
    simp only [Number, slice, List.drop_succ_cons, List.drop_zero]
    rw [trimChars_eq_self fun c hc => (hf c hc).1]
    exact strNumericLiteral_digits hne hd
  have he : includes ⟨'@' :: ds⟩ '=' = false := by
    have hmem : '=' ∉ '@' :: ds := by
      intro h
      rcases List.mem_cons.mp h with h | h
      · exact absurd h (by decide)
      · exact (hf _ h).2.1 rfl
    simpa [includes] using hmem
  have hs : includes ⟨'@' :: ds⟩ ';' = false := by
    have hmem : ';' ∉ '@' :: ds := by
      intro h
      rcases List.mem_cons.mp h with h | h
      · exact absurd h (by decide)
      · exact (hf _ h).2.2.1 rfl
    simpa [includes] using hmem
  simp [forEachBody, ifAddress, ifAssign, ifJump, hN, he, hs]

/-! ## Binary words -/

theorem binaryValue_foldl (l : List Char) (acc : Nat) :
    l.foldl (fun acc c => 2 * acc + (if c = '1' then 1 else 0)) acc =
      acc * 2 ^ l.length + l.foldl (fun acc c => 2 * acc + (if c = '1' then 1 else 0)) 0 := by
  induction l generalizing acc with
  | nil => simp
  | cons c t ih =>
    simp only [List.foldl_cons, List.length_cons]
    rw [ih (2 * acc + _), ih (2 * 0 + _)]
    ring

theorem binaryValue_cons (c : Char) (t : List Char) :
    binaryValue ⟨c :: t⟩ = (if c = '1' then 1 else 0) * 2 ^ t.length + binaryValue ⟨t⟩ := by
  simp only [binaryValue, List.foldl_cons]
  rw [binaryValue_foldl]
  simp

theorem binaryValue_lt (l : List Char) : binaryValue ⟨l⟩ < 2 ^ l.length := by
  induction l with
  | nil => simp [binaryValue]
  | cons c t ih =>
    rw [binaryValue_cons, List.length_cons, pow_succ]
    split_ifs <;> omega

theorem binaryValue_replicate_append (k : Nat) (l : List Char) :
    binaryValue ⟨List.replicate k '0' ++ l⟩ = binaryValue ⟨l⟩ := by
  induction k with
  | zero => simp
  | succ k ih =>
    rw [List.replicate_succ, List.cons_append, binaryValue_cons, ih]
    simp

theorem binaryValue_eq_digitsValue {l : List Char} (h : allDigits 2 l = true) :
    binaryValue ⟨l⟩ = digitsValue 2 l := by
  simp only [allDigits, List.all_eq_true] at h
  unfold binaryValue digitsValue
  apply List.foldl_ext
  intro a c hc
  rcases mem_binary_of_digitValue (h c hc) with rfl | rfl <;> rfl

theorem address_word (v : Nat) (hv : v < 2 ^ 16) :
    (padStart (toString2 (roundToDouble v)) 16 '0').length = 16 ∧
      isBinaryWord (padStart (toString2 (roundToDouble v)) 16 '0') = true ∧
      binaryValue (padStart (toString2 (roundToDouble v)) 16 '0') = v ∧
      ((padStart (toString2 (roundToDouble v)) 16 '0').data.head? = some '0' ↔ v < 2 ^ 15) := by
  obtain ⟨-, hall, hval⟩ := toDigits_spec 2 v (le_refl 2) (by decide)
  have hlen : (Nat.toDigits 2 v).length ≤ 16 :=
    Nat.toDigitsCore_length 2 (le_refl 2) (v + 1) v 16 hv (by decide)
  have hr : roundToDouble v = .int v := by
    have h53 : v < 2 ^ 53 := lt_of_lt_of_le hv (by decide)
    unfold roundToDouble
    rw [if_pos h53]
  have hw : padStart (toString2 (roundToDouble v)) 16 '0' =
      ⟨List.replicate (16 - (Nat.toDigits 2 v).length) '0' ++ Nat.toDigits 2 v⟩ := by
    have hnn : ¬ ((v : Int) < 0) := by omega
    simp [hr, toString2, padStart, hnn]
  have hbin : ∀ c ∈ List.replicate (16 - (Nat.toDigits 2 v).length) '0' ++ Nat.toDigits 2 v,
      c = '0' ∨ c = '1' := by
    intro c hc
    rcases List.mem_append.mp hc with hc | hc
    · exact Or.inl (List.eq_of_mem_replicate hc)
    · simp only [allDigits, List.all_eq_true] at hall
      exact mem_binary_of_digitValue (hall c hc)
  have hvalue : binaryValue ⟨List.replicate (16 - (Nat.toDigits 2 v).length) '0' ++
      Nat.toDigits 2 v⟩ = v := by
    rw [binaryValue_replicate_append, binaryValue_eq_digitsValue hall, hval]
  have hlength : (List.replicate (16 - (Nat.toDigits 2 v).length) '0' ++
      Nat.toDigits 2 v).length = 16 := by
    simp only [List.length_append, List.length_replicate]
    omega
  rw [hw]
  refine ⟨hlength, ?_, hvalue, ?_⟩
  · simp only [isBinaryWord, List.all_eq_true]
    intro c hc
    rcases hbin c hc with rfl | rfl <;> rfl
  · generalize List.replicate (16 - (Nat.toDigits 2 v).length) '0' ++ Nat.toDigits 2 v = w
      at hbin hvalue hlength
    cases w with
    | nil => simp at hlength
    | cons c t =>
      have ht : t.length = 15 := by simpa using hlength
      have hlt := binaryValue_lt t
      rw [binaryValue_cons, ht] at hvalue
      rw [ht] at hlt
      rcases hbin c (List.mem_cons_self _ _) with rfl | rfl
      · simp only [List.head?_cons, true_iff]
        simp at hvalue
        omega
      · simp only [List.head?_cons, Option.some.injEq]
        simp at hvalue
        constructor
        · intro h
          exact absurd h (by decide)
        · intro h
          omega

/-! ## Address instructions -/

theorem addressLine_facts (v : Nat) :
    '\n' ∉ ("@" ++ toString v).data ∧ isBlankLine ("@" ++ toString v) = false ∧
      forEachBody [] (trim ("@" ++ toString v)) =
        some [padStart (toString2 (roundToDouble v)) 16 '0'] := by
  obtain ⟨hne, hall, hval⟩ := toDigits_spec 10 v (by decide) (le_refl 10)
  have hdata : "@" ++ toString v = ⟨'@' :: Nat.toDigits 10 v⟩ := rfl
  have hf := allDigits_facts hall
  have htrim : trim ("@" ++ toString v) = ⟨'@' :: Nat.toDigits 10 v⟩ := by
    rw [hdata]
    unfold trim
    rw [trimChars_eq_self]
    intro c hc
    rcases List.mem_cons.mp hc with h | h
    · rw [h]
      decide
    · exact (hf _ h).1
  refine ⟨?_, ?_, ?_⟩
  · rw [hdata]
    intro h
    rcases List.mem_cons.mp h with h | h
    · exact absurd h (by decide)
    · exact (hf _ h).2.2.2.1 rfl
  · rw [hdata]
    simp [isBlankLine, isWhiteSpace, whiteSpaceCodes]
  · rw [htrim, forEachBody_address [] hne hall, hval]
    rfl

theorem assemble_at_literal (v : Nat) :
    assemble ("@" ++ toString v) =
      some (padStart (toString2 (roundToDouble v)) 16 '0') := by
  obtain ⟨hnl, -, hw⟩ := addressLine_facts v
  rw [assemble_single_line _ hnl, hw]
  rfl

/-- C3, as stated, fails: `@32768` assembles to `1000000000000000`, a 16-character
word of value 32768 whose first bit is `1`, so not every literal up to 65535 gives a
word whose first bit is `0`. -/
theorem assemble_address_msb_fails :
    assemble ("@" ++ toString 32768) = some "1000000000000000" ∧
      ¬ ∀ v : Nat, v ≤ 65535 → ∃ w : String, assemble ("@" ++ toString v) = some w ∧
        w.length = 16 ∧ isBinaryWord w = true ∧ binaryValue w = v ∧
        w.data.head? = some '0' := by
  have h : assemble ("@" ++ toString 32768) = some "1000000000000000" := by decide
  refine ⟨h, fun hall => ?_⟩
  obtain ⟨w, hw, -, -, -, hhead⟩ := hall 32768 (by decide)
  rw [h] at hw
  cases hw
  exact absurd hhead (by decide)

/-- C3, amended: for an address literal `v` with `0 ≤ v ≤ 65535` in decimal, `@v`
assembles to a 16-character word over `0`/`1` whose unsigned binary value is `v`;
its first bit is `0` exactly when `v ≤ 32767`. -/
theorem assemble_address (v : Nat) (hv : v ≤ 65535) :
    ∃ w : String, assemble ("@" ++ toString v) = some w ∧ w.length = 16 ∧
      isBinaryWord w = true ∧ binaryValue w = v ∧
      (w.data.head? = some '0' ↔ v ≤ 32767) := by
  obtain ⟨h1, h2, h3, h4⟩ := address_word v (by omega)
  refine ⟨_, assemble_at_literal v, h1, h2, h3, ?_⟩
  rw [h4]
  omega

theorem assemble_address_witness :
    (40000 : Nat) ≤ 65535 ∧ ∃ w : String, assemble ("@" ++ toString 40000) = some w ∧
      w.length = 16 ∧ isBinaryWord w = true ∧ binaryValue w = 40000 ∧
      (w.data.head? = some '0' ↔ 40000 ≤ 32767) :=
  ⟨by decide, assemble_address 40000 (by decide)⟩

/-! ## Line independence -/

theorem ifAddress_append (line : String) (binary words : List String) :
    ifAddress line (binary ++ words) =
      (ifAddress line words).map fun ws => binary ++ ws := by
  unfold ifAddress
  split
  · cases Number (slice line 1) <;> simp
  · rfl

theorem ifAssign_append (line str : String) (binary words : List String) :
    ifAssign line (str, binary ++ words) =
      (ifAssign line (str, words)).map fun st => (st.1, binary ++ st.2) := by
  unfold ifAssign
  split
  · split
    · rename_i dest operation _ _
      cases lookupComps operation <;> cases getProp lookupDest dest <;> simp
    · rfl
  · rfl

theorem ifJump_append (line str : String) (binary words : List String) :
    ifJump line (str, binary ++ words) =
      (ifJump line (str, words)).map fun st => (st.1, binary ++ st.2) := by
  unfold ifJump
  split
  · split
    · rename_i op jump _ _
      cases lookupComps op <;> cases getProp lookupJump jump <;> simp
    · rfl
  · rfl

theorem forEachBody_append (binary : List String) (line : String) :
    forEachBody binary line = (forEachBody [] line).map fun words => binary ++ words := by
  unfold forEachBody
  have h1 := ifAddress_append line binary []
  rw [List.append_nil] at h1
  rw [h1]
  cases ifAddress line [] with
  | none => rfl
  | some ws =>
    simp only [Option.map_some', Option.bind_eq_bind, Option.some_bind]
    rw [ifAssign_append]
    cases ifAssign line ("111", ws) with
    | none => rfl
    | some st =>
      obtain ⟨str, ws'⟩ := st
      simp only [Option.map_some', Option.some_bind]
      rw [ifJump_append]
      cases ifJump line (str, ws') <;> rfl

/-! ## Programs of several lines -/

theorem intercalate_cons (sep a : List Char) (as : List (List Char)) :
    List.intercalate sep (a :: as) = a ++ (as.map fun b => sep ++ b).flatten := by
  induction as generalizing a with
  | nil => simp [List.intercalate]
  | cons b bs ih =>
    have h := ih b
    simp only [List.intercalate, List.intersperse, List.flatten, List.map_cons] at h ⊢
    rw [h]
    simp

theorem intercalate_go_data (acc sep : String) (l : List String) :
    (String.intercalate.go acc sep l).data =
      acc.data ++ (l.map fun a => sep.data ++ a.data).flatten := by
  induction l generalizing acc with
  | nil => simp [String.intercalate.go]
  | cons a as ih => simp [String.intercalate.go, ih, String.data_append]

theorem intercalate_data (sep : String) (l : List String) :
    (sep.intercalate l).data = List.intercalate sep.data (l.map String.data) := by
  cases l with
  | nil => rfl
  | cons a as =>
    rw [String.intercalate, intercalate_go_data, List.map_cons, intercalate_cons, List.map_map]
    rfl

theorem split_intercalate (ls : List String) (hne : ls ≠ [])
    (hnl : ∀ l ∈ ls, '\n' ∉ l.data) : split ("\n".intercalate ls) '\n' = ls := by
  unfold split
  rw [intercalate_data]
  have hx : ∀ cs ∈ ls.map String.data, '\n' ∉ cs := by
    intro cs hcs
    obtain ⟨s, hs, rfl⟩ := List.mem_map.mp hcs
    exact hnl s hs
  have h := List.splitOn_intercalate (ls.map String.data) '\n' hx (by simpa using hne)
  have hd : "\n".data = ['\n'] := rfl
  have hid : String.mk ∘ String.data = id := rfl
  rw [hd, h, List.map_map, hid, List.map_id]

theorem foldlM_forEachBody (ls : List String) (words : String → List String)
    (h : ∀ l ∈ ls, forEachBody [] (trim l) = some (words l)) (binary : List String) :
    (ls.map trim).foldlM forEachBody binary = some (binary ++ (ls.map words).flatten) := by
  induction ls generalizing binary with
  | nil => simp
  | cons l ls ih =>
    have hl := h l (List.mem_cons_self _ _)
    simp only [List.map_cons, List.foldlM_cons, List.flatten_cons]
    rw [forEachBody_append, hl]
    simp only [Option.map_some', Option.bind_eq_bind, Option.some_bind]
    rw [ih (fun l' hl' => h l' (List.mem_cons_of_mem _ hl'))]
    simp

theorem destLine_table : ∀ p ∈ lookupDest, ∀ q ∈ comps,
    '\n' ∉ (p.1 ++ "=" ++ q.1).data ∧ isBlankLine (p.1 ++ "=" ++ q.1) = false ∧
      forEachBody [] (trim (p.1 ++ "=" ++ q.1)) =
        some ["111" ++ (if 'M' ∈ q.1.data then "1" else "0") ++ q.2 ++ p.2 ++ "000"] ∧
      ("111" ++ (if 'M' ∈ q.1.data then "1" else "0") ++ q.2 ++ p.2 ++ "000").length = 16 ∧
      isBinaryWord ("111" ++ (if 'M' ∈ q.1.data then "1" else "0") ++ q.2 ++ p.2 ++ "000")
        = true := by
  decide

theorem jumpLine_table : ∀ q ∈ comps, ∀ p ∈ lookupJump,
    '\n' ∉ (q.1 ++ ";" ++ p.1).data ∧ isBlankLine (q.1 ++ ";" ++ p.1) = false ∧
      forEachBody [] (trim (q.1 ++ ";" ++ p.1)) =
        some ["111" ++ (if 'M' ∈ q.1.data then "1" else "0") ++ q.2 ++ "000" ++ p.2] ∧
      ("111" ++ (if 'M' ∈ q.1.data then "1" else "0") ++ q.2 ++ "000" ++ p.2).length = 16 ∧
      isBinaryWord ("111" ++ (if 'M' ∈ q.1.data then "1" else "0") ++ q.2 ++ "000" ++ p.2)
        = true := by
  decide

theorem blankLine_facts {l : String} (h : isBlankLine l = true) :
    '\n' ∉ l.data ∧ forEachBody [] (trim l) = some [] := by
  simp only [isBlankLine, List.all_eq_true, Bool.and_eq_true, bne_iff_ne, ne_eq] at h
  refine ⟨fun hmem => (h _ hmem).2 rfl, ?_⟩
  have ht : trim l = "" := by
    unfold trim
    rw [trimChars_eq_nil fun c hc => (h c hc).1]
  rw [ht]
  decide

/-- What a well-formed line contributes: no word when blank, otherwise one
16-character word over `0`/`1`. -/
theorem wellFormedLine_words {l : String} (h : WellFormedLine l) :
    '\n' ∉ l.data ∧
      ((isBlankLine l = true ∧ forEachBody [] (trim l) = some []) ∨
        (isBlankLine l = false ∧ ∃ w : String, forEachBody [] (trim l) = some [w] ∧
          w.length = 16 ∧ isBinaryWord w = true)) := by
  rcases h with hb | ⟨v, hv, rfl⟩ | ⟨d, c, hd, hc, rfl⟩ | ⟨c, j, hc, hj, rfl⟩
  · obtain ⟨h1, h2⟩ := blankLine_facts hb
    exact ⟨h1, Or.inl ⟨hb, h2⟩⟩
  · obtain ⟨h1, h2, h3⟩ := addressLine_facts v
    obtain ⟨w1, w2, -, -⟩ := address_word v (by omega)
    exact ⟨h1, Or.inr ⟨h2, _, h3, w1, w2⟩⟩
  · obtain ⟨p, hp, rfl⟩ := List.mem_map.mp hd
    obtain ⟨q, hq, rfl⟩ := List.mem_map.mp hc
    obtain ⟨h1, h2, h3, h4, h5⟩ := destLine_table p hp q hq
    exact ⟨h1, Or.inr ⟨h2, _, h3, h4, h5⟩⟩
  · obtain ⟨q, hq, rfl⟩ := List.mem_map.mp hc
    obtain ⟨p, hp, rfl⟩ := List.mem_map.mp hj
    obtain ⟨h1, h2, h3, h4, h5⟩ := jumpLine_table q hq p hp
    exact ⟨h1, Or.inr ⟨h2, _, h3, h4, h5⟩⟩

theorem wellFormedLines_words (ls : List String) (h : ∀ l ∈ ls, WellFormedLine l) :
    List.Forall₂ (fun l w => assemble l = some w) (ls.filter fun l => !isBlankLine l)
        (ls.map fun l => (forEachBody [] (trim l)).getD []).flatten ∧
      ∀ w ∈ (ls.map fun l => (forEachBody [] (trim l)).getD []).flatten,
        w.length = 16 ∧ isBinaryWord w = true := by
  induction ls with
  | nil => exact ⟨List.Forall₂.nil, fun w hw => by simp at hw⟩
  | cons l ls ih =>
    obtain ⟨ih1, ih2⟩ := ih fun l' hl' => h l' (List.mem_cons_of_mem _ hl')
    obtain ⟨hnl, ⟨hb, hw⟩ | ⟨hb, w, hw, hlen, hbin⟩⟩ :=
      wellFormedLine_words (h l (List.mem_cons_self _ _))
    · simp only [List.map_cons, List.flatten_cons, hw, Option.getD_some, List.nil_append,
        List.filter_cons, hb, Bool.not_true, Bool.false_eq_true, if_false]
      exact ⟨ih1, ih2⟩
    · simp only [List.map_cons, List.flatten_cons, hw, Option.getD_some, List.singleton_append,
        List.filter_cons, hb, Bool.not_false, if_true]
      refine ⟨List.Forall₂.cons ?_ ih1, ?_⟩
      · rw [assemble_single_line l hnl, hw]
        rfl
      · intro w' hw'
        rcases List.mem_cons.mp hw' with rfl | hw'
        · exact ⟨hlen, hbin⟩
        · exact ih2 w' hw'

/-- C4: for lines that are each blank, `@` with a decimal literal in `0..65535`,
`dest=comp` or `comp;jump` with table mnemonics, `assemble` of the lines joined by
newlines returns words joined by single newlines, where the words are, in source
order, the word of each non-blank line (blank lines give none), and every word
has 16 characters over `0`/`1`. -/
theorem assemble_program (ls : List String) (h : ∀ l ∈ ls, WellFormedLine l) :
    ∃ words : List String,
      assemble ("\n".intercalate ls) = some ("\n".intercalate words) ∧
      List.Forall₂ (fun l w => assemble l = some w)
        (ls.filter fun l => !isBlankLine l) words ∧
      ∀ w ∈ words, w.length = 16 ∧ isBinaryWord w = true := by
  obtain ⟨h1, h2⟩ := wellFormedLines_words ls h
  refine ⟨_, ?_, h1, h2⟩
  by_cases hne : ls = []
  · subst hne
    decide
  · have hsplit := split_intercalate ls hne fun l hl => (wellFormedLine_words (h l hl)).1
    have hfold := foldlM_forEachBody ls (fun l => (forEachBody [] (trim l)).getD [])
      (fun l hl => by
        rcases (wellFormedLine_words (h l hl)).2 with ⟨-, hw⟩ | ⟨-, w, hw, -, -⟩ <;>
          simp [hw]) []
    simp only [assemble, hsplit, hfold, List.nil_append, Option.bind_eq_bind, Option.some_bind,
      Option.pure_def, join]

theorem assemble_program_witness :
    (∀ l ∈ ["@42", "", "D=A", " \t", "@0", "D;JGT"], WellFormedLine l) ∧
      ∃ words : List String,
        assemble ("\n".intercalate ["@42", "", "D=A", " \t", "@0", "D;JGT"]) =
          some ("\n".intercalate words) ∧
        List.Forall₂ (fun l w => assemble l = some w)
          (["@42", "", "D=A", " \t", "@0", "D;JGT"].filter fun l => !isBlankLine l) words ∧
        ∀ w ∈ words, w.length = 16 ∧ isBinaryWord w = true :=
  have hwf : ∀ l ∈ ["@42", "", "D=A", " \t", "@0", "D;JGT"], WellFormedLine l := by
    intro l hl
    simp only [List.mem_cons, List.mem_singleton, List.not_mem_nil, or_false] at hl
    rcases hl with rfl | rfl | rfl | rfl | rfl | rfl
    · exact Or.inr (Or.inl ⟨42, by decide, by decide⟩)
    · exact Or.inl (by decide)
    · exact Or.inr (Or.inr (Or.inl ⟨"D", "A", by decide, by decide, by decide⟩))
    · exact Or.inl (by decide)
    · exact Or.inr (Or.inl ⟨0, by decide, by decide⟩)
    · exact Or.inr (Or.inr (Or.inr ⟨"D", "JGT", by decide, by decide, by decide⟩))
  ⟨hwf, assemble_program _ hwf⟩


/-! ## Splitting a line at a separator it includes -/

theorem splitOn_of_mem (c : Char) (l : List Char) (h : c ∈ l) :
    ∃ a b t, l.splitOn c = a :: b :: t := by
  induction l with
  | nil => simp at h
  | cons x xs ih =>
    unfold List.splitOn at ih ⊢
    rw [List.splitOnP_cons]
    by_cases hx : x = c
    · subst hx
      obtain ⟨b, t, hbt⟩ := List.exists_cons_of_ne_nil (List.splitOnP_ne_nil (· == x) xs)
      exact ⟨[], b, t, by simp [hbt]⟩
    · have hmem : c ∈ xs := by
        rcases List.mem_cons.mp h with h | h
        · exact absurd h.symm hx
        · exact h
      obtain ⟨a, b, t, habt⟩ := ih hmem
      exact ⟨x :: a, b, t, by simp [hx, habt, List.modifyHead]⟩

theorem split_of_includes (line : String) (c : Char) (h : includes line c = true) :
    ∃ a b t, split line c = a :: b :: t := by
  have hmem : c ∈ line.data := by simpa [includes] using h
  obtain ⟨a, b, t, habt⟩ := splitOn_of_mem c line.data hmem
  exact ⟨⟨a⟩, ⟨b⟩, t.map String.mk, by simp [split, habt]⟩

/-! ## The words behind the output -/

theorem assemble_eq_join (a : String) :
    assemble a = (emittedWords a).map fun binary => join binary "\n" := by
  dsimp only [assemble, emittedWords]
  generalize ((split a '\n').map trim).foldlM forEachBody [] = r
  cases r <;> rfl

theorem emittedWords_single_line (l : String) (h : '\n' ∉ l.data) :
    emittedWords l = forEachBody [] (trim l) := by
  simp only [emittedWords, split_newline_single l h, List.map_cons, List.map_nil,
    List.foldlM_cons, List.foldlM_nil]
  cases forEachBody [] (trim l) <;> rfl

/-- C16: the six-line program of the header comment assembles to the six words of
its output listing, and the built-in default program, indented as in the source,
to the four words of its listing. -/
theorem assemble_header_examples :
    assemble "@2\nD=A\n@3\nD=D+A\n@0\nM=D" =
        some ("0000000000000010\n1110110000010000\n0000000000000011\n" ++
          "1110000010010000\n0000000000000000\n1110001100001000") ∧
      assemble assembly =
        some ("0000000000101010\n1110110000010000\n0000000000000000\n" ++
          "1110001100000001") := by
  decide

/-! ## Computation lines with arbitrary tokens -/

theorem getProp_eq_propText (obj : List (String × String)) {key : String}
    (h : key ∉ objectPrototypeKeys) : getProp obj key = some (propText obj key) := by
  unfold getProp propText
  cases obj.lookup key <;> simp [h]

theorem lookupComps_eq_propText {c : String} (h : c ∉ objectPrototypeKeys) :
    lookupComps c = some ((if 'M' ∈ c.data then "1" else "0") ++ propText comps c) := by
  unfold lookupComps
  rw [getProp_eq_propText comps h]
  by_cases hM : 'M' ∈ c.data
  · have hi : includes c 'M' = true := by simpa [includes] using hM
    simp [hi, hM]
  · have hi : includes c 'M' = false := by simpa [includes] using hM
    simp [hi, hM]

theorem getProp_eq_none {obj : List (String × String)} {key : String}
    (h : getProp obj key = none) : key ∈ objectPrototypeKeys := by
  by_contra hk
  rw [getProp_eq_propText obj hk] at h
  exact absurd h (by simp)

theorem lookupComps_eq_none {c : String} (h : lookupComps c = none) :
    c ∈ objectPrototypeKeys := by
  by_contra hk
  rw [lookupComps_eq_propText hk] at h
  exact absurd h (by simp)

theorem isToken_facts {s : String} (h : isToken s = true) : ∀ ch ∈ s.data,
    isWhiteSpace ch = false ∧ ch ≠ '=' ∧ ch ≠ ';' ∧ ch ≠ '@' ∧ ch ≠ '\n' := by
  intro ch hch
  simp only [isToken, List.all_eq_true, Bool.and_eq_true, Bool.not_eq_true', bne_iff_ne,
    ne_eq] at h
  obtain ⟨⟨⟨h1, h2⟩, h3⟩, h4⟩ := h ch hch
  refine ⟨h1, h2, h3, h4, ?_⟩
  intro hn
  rw [hn] at h1
  exact absurd h1 (by decide)

theorem splitOn_pair (sep : Char) (a b : List Char) (ha : sep ∉ a) (hb : sep ∉ b) :
    (a ++ sep :: b).splitOn sep = [a, b] := by
  have hx : ∀ cs ∈ [a, b], sep ∉ cs := by
    intro cs hcs
    simp only [List.mem_cons, List.mem_singleton, List.not_mem_nil, or_false] at hcs
    rcases hcs with rfl | rfl
    · exact ha
    · exact hb
  simpa [List.intercalate] using List.splitOn_intercalate [a, b] sep hx (by simp)

theorem includes_eq_false {s : String} {c : Char} (h : c ∉ s.data) : includes s c = false := by
  simpa [includes] using h

theorem includes_eq_true {s : String} {c : Char} (h : c ∈ s.data) : includes s c = true := by
  simpa [includes] using h

theorem separated_line_facts (d c : String) (sep other : Char)
    (hsep : isWhiteSpace sep = false) (hne : sep ≠ '@') (hno : other ≠ sep)
    (hd : ∀ ch ∈ d.data, isWhiteSpace ch = false ∧ ch ≠ sep ∧ ch ≠ other ∧ ch ≠ '@')
    (hc : ∀ ch ∈ c.data, isWhiteSpace ch = false ∧ ch ≠ sep ∧ ch ≠ other ∧ ch ≠ '@') :
    trim (d ++ String.singleton sep ++ c) = d ++ String.singleton sep ++ c ∧
      (d ++ String.singleton sep ++ c).data.head? ≠ some '@' ∧
      includes (d ++ String.singleton sep ++ c) sep = true ∧
      includes (d ++ String.singleton sep ++ c) other = false ∧
      split (d ++ String.singleton sep ++ c) sep = [d, c] := by
  have hdata : (d ++ String.singleton sep ++ c).data = d.data ++ sep :: c.data := by
    simp [String.data_append, String.singleton]
  refine ⟨?_, ?_, ?_, ?_, ?_⟩
  · apply String.ext
    show trimChars _ = _
    apply trimChars_eq_self
    intro ch hch
    rw [hdata] at hch
    rcases List.mem_append.mp hch with h | h
    · exact (hd ch h).1
    · rcases List.mem_cons.mp h with h | h
      · rw [h]
        exact hsep
      · exact (hc ch h).1
  · rw [hdata]
    cases hdd : d.data with
    | nil =>
      simp only [List.nil_append, List.head?_cons, ne_eq, Option.some.injEq]
      exact hne
    | cons x xs =>
      simp only [List.cons_append, List.head?_cons, ne_eq, Option.some.injEq]
      exact (hd x (by rw [hdd]; exact List.mem_cons_self _ _)).2.2.2
  · apply includes_eq_true
    rw [hdata]
    simp
  · apply includes_eq_false
    rw [hdata]
    intro h
    rcases List.mem_append.mp h with h | h
    · exact (hd _ h).2.2.1 rfl
    · rcases List.mem_cons.mp h with h | h
      · exact hno h
      · exact (hc _ h).2.2.1 rfl
  · unfold split
    rw [hdata, splitOn_pair sep _ _ (fun h => (hd _ h).2.1 rfl) (fun h => (hc _ h).2.1 rfl)]
    rfl

theorem ifAddress_of_not_at {line : String} (h : line.data.head? ≠ some '@')
    (binary : List String) : ifAddress line binary = some binary := by
  unfold ifAddress
  rw [if_neg h]
  rfl

theorem ifAssign_of_not_includes {line : String} (h : includes line '=' = false)
    (st : String × List String) : ifAssign line st = some st := by
  unfold ifAssign
  simp [h]

theorem ifJump_of_not_includes {line : String} (h : includes line ';' = false)
    (st : String × List String) : ifJump line st = some st := by
  unfold ifJump
  simp [h]

theorem ifAssign_of_split {line d c : String} {t : List String}
    (h : includes line '=' = true) (hs : split line '=' = d :: c :: t)
    (st : String × List String) :
    ifAssign line st =
      (lookupComps c).bind fun cb =>
        (getProp lookupDest d).map fun db =>
          (st.1 ++ cb ++ db ++ "000", st.2 ++ [st.1 ++ cb ++ db ++ "000"]) := by
  unfold ifAssign
  rw [if_pos h, hs]
  cases hl : lookupComps c <;> cases hg : getProp lookupDest d <;> simp [hl, hg]

theorem ifJump_of_split {line o j : String} {t : List String}
    (h : includes line ';' = true) (hs : split line ';' = o :: j :: t)
    (st : String × List String) :
    ifJump line st =
      (lookupComps o).bind fun ob =>
        (getProp lookupJump j).map fun jb =>
          (st.1 ++ ob ++ "000" ++ jb, st.2 ++ [st.1 ++ ob ++ "000" ++ jb]) := by
  unfold ifJump
  rw [if_pos h, hs]
  cases hl : lookupComps o <;> cases hg : getProp lookupJump j <;> simp [hl, hg]

theorem forEachBody_dest_line (d c : String) (hd : isToken d = true) (hc : isToken c = true) :
    trim (d ++ "=" ++ c) = d ++ "=" ++ c ∧ '\n' ∉ (d ++ "=" ++ c).data ∧
      forEachBody [] (d ++ "=" ++ c) =
        (lookupComps c).bind fun cb =>
          (getProp lookupDest d).map fun db => ["111" ++ cb ++ db ++ "000"] := by
  have fd := isToken_facts hd
  have fc := isToken_facts hc
  obtain ⟨h1, h2, h3, h4, h5⟩ := separated_line_facts d c '=' ';' (by decide) (by decide)
    (by decide) (fun ch h => ⟨(fd ch h).1, (fd ch h).2.1, (fd ch h).2.2.1, (fd ch h).2.2.2.1⟩)
    (fun ch h => ⟨(fc ch h).1, (fc ch h).2.1, (fc ch h).2.2.1, (fc ch h).2.2.2.1⟩)
  have hs : String.singleton '=' = "=" := rfl
  rw [hs] at h1 h2 h3 h4 h5
  refine ⟨h1, ?_, ?_⟩
  · have hdata : (d ++ "=" ++ c).data = d.data ++ '=' :: c.data := by
      simp [String.data_append]
    rw [hdata]
    intro h
    rcases List.mem_append.mp h with h | h
    · exact (fd _ h).2.2.2.2 rfl
    · rcases List.mem_cons.mp h with h | h
      · exact absurd h (by decide)
      · exact (fc _ h).2.2.2.2 rfl
  · unfold forEachBody
    rw [ifAddress_of_not_at h2]
    simp only [Option.bind_eq_bind, Option.some_bind]
    rw [ifAssign_of_split h3 h5]
    cases lookupComps c <;> cases getProp lookupDest d <;>
      simp [ifJump_of_not_includes h4]

theorem forEachBody_jump_line (c j : String) (hc : isToken c = true) (hj : isToken j = true) :
    trim (c ++ ";" ++ j) = c ++ ";" ++ j ∧ '\n' ∉ (c ++ ";" ++ j).data ∧
      forEachBody [] (c ++ ";" ++ j) =
        (lookupComps c).bind fun cb =>
          (getProp lookupJump j).map fun jb => ["111" ++ cb ++ "000" ++ jb] := by
  have fc := isToken_facts hc
  have fj := isToken_facts hj
  obtain ⟨h1, h2, h3, h4, h5⟩ := separated_line_facts c j ';' '=' (by decide) (by decide)
    (by decide) (fun ch h => ⟨(fc ch h).1, (fc ch h).2.2.1, (fc ch h).2.1, (fc ch h).2.2.2.1⟩)
    (fun ch h => ⟨(fj ch h).1, (fj ch h).2.2.1, (fj ch h).2.1, (fj ch h).2.2.2.1⟩)
  have hs : String.singleton ';' = ";" := rfl
  rw [hs] at h1 h2 h3 h4 h5
  refine ⟨h1, ?_, ?_⟩
  · have hdata : (c ++ ";" ++ j).data = c.data ++ ';' :: j.data := by
      simp [String.data_append]
    rw [hdata]
    intro h
    rcases List.mem_append.mp h with h | h
    · exact (fc _ h).2.2.2.2 rfl
    · rcases List.mem_cons.mp h with h | h
      · exact absurd h (by decide)
      · exact (fj _ h).2.2.2.2 rfl
  · unfold forEachBody
    rw [ifAddress_of_not_at h2]
    simp only [Option.bind_eq_bind, Option.some_bind]
    rw [ifAssign_of_not_includes h4]
    simp only [Option.some_bind]
    rw [ifJump_of_split h3 h5]
    cases lookupComps c <;> cases getProp lookupJump j <;> simp

/-- C12, as stated, fails: `D*A` is not a key of `comps`, yet `D=D*A` assembles,
without any failure, to a word that contains the text `undefined`. -/
theorem assemble_unknown_mnemonic_not_rejected :
    comps.lookup "D*A" = none ∧ assemble "D=D*A" = some "1110undefined010000" := by
  decide

/-- C12, amended: `assemble` has no failure for an unknown mnemonic.  For tokens
`d` and `c` (no white space, `=`, `;` or `@`) that do not name an inherited
property, `d=c` assembles to the single word `111`, selector bit, `comps[c]`,
`lookupDest[d]`, `000`, and for such `c` and `j` the line `c;j` to `111`, selector
bit, `comps[c]`, `000`, `lookupJump[j]`, where the pattern of a token that is not a
key of its table is the text `undefined`. -/
theorem assemble_unknown_mnemonic (a b : String) (ha : isToken a = true)
    (hb : isToken b = true) (hpa : a ∉ objectPrototypeKeys) (hpb : b ∉ objectPrototypeKeys) :
    assemble (a ++ "=" ++ b) =
        some ("111" ++ ((if 'M' ∈ b.data then "1" else "0") ++ propText comps b) ++
          propText lookupDest a ++ "000") ∧
      assemble (a ++ ";" ++ b) =
        some ("111" ++ ((if 'M' ∈ a.data then "1" else "0") ++ propText comps a) ++ "000" ++
          propText lookupJump b) ∧
      (∀ obj : List (String × String), ∀ key : String,
        obj.lookup key = none → propText obj key = "undefined") := by
  refine ⟨?_, ?_, ?_⟩
  · obtain ⟨h1, h2, h3⟩ := forEachBody_dest_line a b ha hb
    rw [assemble_single_line _ h2, h1, h3, lookupComps_eq_propText hpb,
      getProp_eq_propText lookupDest hpa]
    rfl
  · obtain ⟨h1, h2, h3⟩ := forEachBody_jump_line a b ha hb
    rw [assemble_single_line _ h2, h1, h3, lookupComps_eq_propText hpa,
      getProp_eq_propText lookupJump hpb]
    rfl
  · intro obj key h
    simp [propText, h]

theorem assemble_unknown_mnemonic_witness :
    isToken "D" = true ∧ isToken "D*A" = true ∧ "D" ∉ objectPrototypeKeys ∧
      "D*A" ∉ objectPrototypeKeys ∧
      (assemble ("D" ++ "=" ++ "D*A") =
        some ("111" ++ ((if 'M' ∈ "D*A".data then "1" else "0") ++ propText comps "D*A") ++
          propText lookupDest "D" ++ "000") ∧
      assemble ("D" ++ ";" ++ "D*A") =
        some ("111" ++ ((if 'M' ∈ "D".data then "1" else "0") ++ propText comps "D") ++ "000" ++
          propText lookupJump "D*A") ∧
      (∀ obj : List (String × String), ∀ key : String,
        obj.lookup key = none → propText obj key = "undefined")) :=
  ⟨by decide, by decide, by decide, by decide,
    assemble_unknown_mnemonic "D" "D*A" (by decide) (by decide) (by decide) (by decide)⟩

/-! ## Lines of no recognised shape -/

/-- C13, as stated, fails: the non-empty line `D+1` (no `@`, `=` or `;`) is skipped
without any failure, and `D=A;JMP`, with both separators, is not rejected either:
two words are emitted for it. -/
theorem assemble_malformed_not_rejected :
    assemble "D+1" = some "" ∧
      assemble "D=A;JMP" =
        some "1111undefined010000\n1111undefined0100000undefined000111" := by
  decide

/-- C13, amended: `assemble` rejects no line.  A line that, once trimmed, does not
start with `@` and includes neither `=` nor `;` is skipped: no word is emitted for
it.  A line that does not start with `@` and includes both `=` and `;` emits two
words when none of the four parts cut out by the separators names an inherited
property: the word of the `=` statement, and that word extended by the selector
bit and pattern of the part before `;`, `000`, and the pattern of the part after. -/
theorem assemble_malformed_line (l : String) (hnl : '\n' ∉ l.data)
    (hat : (trim l).data.head? ≠ some '@') :
    (includes (trim l) '=' = false → includes (trim l) ';' = false →
        emittedWords l = some [] ∧ assemble l = some "") ∧
      (includes (trim l) '=' = true → includes (trim l) ';' = true →
        ∃ d c o j : String, ∃ t u : List String,
          split (trim l) '=' = d :: c :: t ∧ split (trim l) ';' = o :: j :: u ∧
          (d ∉ objectPrototypeKeys → c ∉ objectPrototypeKeys → o ∉ objectPrototypeKeys →
            j ∉ objectPrototypeKeys →
            emittedWords l =
              some ["111" ++ ((if 'M' ∈ c.data then "1" else "0") ++ propText comps c) ++
                  propText lookupDest d ++ "000",
                "111" ++ ((if 'M' ∈ c.data then "1" else "0") ++ propText comps c) ++
                  propText lookupDest d ++ "000" ++
                  ((if 'M' ∈ o.data then "1" else "0") ++ propText comps o) ++ "000" ++
                  propText lookupJump j])) := by
  refine ⟨fun he hs => ?_, fun he hs => ?_⟩
  · have hw : emittedWords l = some [] := by
      rw [emittedWords_single_line l hnl]
      unfold forEachBody
      rw [ifAddress_of_not_at hat]
      simp only [Option.bind_eq_bind, Option.some_bind]
      rw [ifAssign_of_not_includes he]
      simp only [Option.some_bind]
      rw [ifJump_of_not_includes hs]
      rfl
    refine ⟨hw, ?_⟩
    rw [assemble_eq_join, hw]
    rfl
  · obtain ⟨d, c, t, hdc⟩ := split_of_includes (trim l) '=' he
    obtain ⟨o, j, u, hoj⟩ := split_of_includes (trim l) ';' hs
    refine ⟨d, c, o, j, t, u, hdc, hoj, fun hd hc ho hj => ?_⟩
    rw [emittedWords_single_line l hnl]
    unfold forEachBody
    rw [ifAddress_of_not_at hat]
    simp only [Option.bind_eq_bind, Option.some_bind]
    rw [ifAssign_of_split he hdc, lookupComps_eq_propText hc,
      getProp_eq_propText lookupDest hd]
    simp only [Option.some_bind, Option.map_some']
    rw [ifJump_of_split hs hoj, lookupComps_eq_propText ho,
      getProp_eq_propText lookupJump hj]
    rfl

theorem assemble_malformed_line_witness :
    '\n' ∉ "D=A;JMP".data ∧ (trim "D=A;JMP").data.head? ≠ some '@' ∧
      ((includes (trim "D=A;JMP") '=' = false → includes (trim "D=A;JMP") ';' = false →
          emittedWords "D=A;JMP" = some [] ∧ assemble "D=A;JMP" = some "") ∧
        (includes (trim "D=A;JMP") '=' = true → includes (trim "D=A;JMP") ';' = true →
          ∃ d c o j : String, ∃ t u : List String,
            split (trim "D=A;JMP") '=' = d :: c :: t ∧
            split (trim "D=A;JMP") ';' = o :: j :: u ∧
            (d ∉ objectPrototypeKeys → c ∉ objectPrototypeKeys → o ∉ objectPrototypeKeys →
              j ∉ objectPrototypeKeys →
              emittedWords "D=A;JMP" =
                some ["111" ++ ((if 'M' ∈ c.data then "1" else "0") ++ propText comps c) ++
                    propText lookupDest d ++ "000",
                  "111" ++ ((if 'M' ∈ c.data then "1" else "0") ++ propText comps c) ++
                    propText lookupDest d ++ "000" ++
                    ((if 'M' ∈ o.data then "1" else "0") ++ propText comps o) ++ "000" ++
                    propText lookupJump j]))) :=
  ⟨by decide, by decide, assemble_malformed_line "D=A;JMP" (by decide) (by decide)⟩

/-! ## Address literals outside the 16-bit range -/

theorem forEachBody_at_line (rest : List Char) (he : '=' ∉ rest) (hs : ';' ∉ rest) :
    forEachBody [] ⟨'@' :: rest⟩ =
      (Number ⟨rest⟩).map fun value => [padStart (toString2 value) 16 '0'] := by
  have hi : includes ⟨'@' :: rest⟩ '=' = false := by
    apply includes_eq_false
    intro h
    rcases List.mem_cons.mp h with h | h
    · exact absurd h (by decide)
    · exact he h
  have hj : includes ⟨'@' :: rest⟩ ';' = false := by
    apply includes_eq_false
    intro h
    rcases List.mem_cons.mp h with h | h
    · exact absurd h (by decide)
    · exact hs h
  have ha : ifAddress ⟨'@' :: rest⟩ [] =
      (Number ⟨rest⟩).map fun value => [padStart (toString2 value) 16 '0'] := by
    have hh : (⟨'@' :: rest⟩ : String).data.head? = some '@' := rfl
    unfold ifAddress
    rw [if_pos hh]
    have hsl : slice ⟨'@' :: rest⟩ 1 = ⟨rest⟩ := rfl
    rw [hsl]
    cases Number ⟨rest⟩ <;> rfl
  unfold forEachBody
  rw [ha]
  cases Number ⟨rest⟩ with
  | none => rfl
  | some value =>
    simp only [Option.map_some', Option.bind_eq_bind, Option.some_bind]
    rw [ifAssign_of_not_includes hi]
    simp only [Option.some_bind]
    rw [ifJump_of_not_includes hj]
    rfl

theorem toDigits_two_length (v : Nat) (hv : 0 < v) :
    (Nat.toDigits 2 v).length = Nat.size v := by
  obtain ⟨-, hall, hval⟩ := toDigits_spec 2 v (le_refl 2) (by decide)
  apply le_antisymm
  · exact Nat.toDigitsCore_length 2 (le_refl 2) (v + 1) v (Nat.size v) (Nat.lt_size_self v)
      (Nat.size_pos.mpr hv)
  · rw [Nat.size_le]
    have h := binaryValue_lt (Nat.toDigits 2 v)
    rwa [binaryValue_eq_digitsValue hall, hval] at h

theorem literal_word (v : Nat) (hv : v < 2 ^ 53) :
    padStart (toString2 (roundToDouble v)) 16 '0' =
        ⟨List.replicate (16 - (Nat.toDigits 2 v).length) '0' ++ Nat.toDigits 2 v⟩ ∧
      isBinaryWord (padStart (toString2 (roundToDouble v)) 16 '0') = true ∧
      binaryValue (padStart (toString2 (roundToDouble v)) 16 '0') = v ∧
      (padStart (toString2 (roundToDouble v)) 16 '0').length = max 16 (Nat.size v) := by
  obtain ⟨hne, hall, hval⟩ := toDigits_spec 2 v (le_refl 2) (by decide)
  have hr : roundToDouble v = .int v := by
    unfold roundToDouble
    rw [if_pos hv]
  have hw : padStart (toString2 (roundToDouble v)) 16 '0' =
      ⟨List.replicate (16 - (Nat.toDigits 2 v).length) '0' ++ Nat.toDigits 2 v⟩ := by
    have hnn : ¬ ((v : Int) < 0) := by omega
    simp [hr, toString2, padStart, hnn]
  rw [hw]
  refine ⟨rfl, ?_, ?_, ?_⟩
  · simp only [isBinaryWord, List.all_eq_true]
    intro c hc
    rcases List.mem_append.mp hc with hc | hc
    · rw [List.eq_of_mem_replicate hc]
      rfl
    · simp only [allDigits, List.all_eq_true] at hall
      rcases mem_binary_of_digitValue (hall c hc) with rfl | rfl <;> rfl
  · rw [binaryValue_replicate_append, binaryValue_eq_digitsValue hall, hval]
  · show (List.replicate (16 - (Nat.toDigits 2 v).length) '0' ++ Nat.toDigits 2 v).length = _
    simp only [List.length_append, List.length_replicate]
    rcases Nat.eq_zero_or_pos v with h0 | hpos
    · subst h0
      have h1 : (Nat.toDigits 2 0).length = 1 := rfl
      rw [h1, Nat.size_zero]
      rfl
    · rw [toDigits_two_length v hpos]
      omega

theorem negativeLine_facts (n : Nat) (hn : 0 < n) (hn53 : n < 2 ^ 53) :
    '\n' ∉ ("@-" ++ toString n).data ∧
      forEachBody [] (trim ("@-" ++ toString n)) =
        some [padStart ⟨'-' :: Nat.toDigits 2 n⟩ 16 '0'] := by
  obtain ⟨hne, hall, hval⟩ := toDigits_spec 10 n (by decide) (le_refl 10)
  have hdata : "@-" ++ toString n = ⟨'@' :: '-' :: Nat.toDigits 10 n⟩ := rfl
  have hf := allDigits_facts hall
  have hws : ∀ c ∈ '-' :: Nat.toDigits 10 n, isWhiteSpace c = false := by
    intro c hc
    rcases List.mem_cons.mp hc with h | h
    · rw [h]
      decide
    · exact (hf _ h).1
  have htrim : trim ("@-" ++ toString n) = ⟨'@' :: '-' :: Nat.toDigits 10 n⟩ := by
    rw [hdata]
    unfold trim
    rw [trimChars_eq_self]
    intro c hc
    rcases List.mem_cons.mp hc with h | h
    · rw [h]
      decide
    · exact hws c h
  have hN : Number ⟨'-' :: Nat.toDigits 10 n⟩ = some (.int (-(n : Int))) := by
    unfold Number
    rw [trimChars_eq_self hws]
    have hs : strNumericLiteral ('-' :: Nat.toDigits 10 n) =
        (unsignedDecimal (Nat.toDigits 10 n)).map JSNumber.neg := by
      simp [strNumericLiteral]
    rw [hs, unsignedDecimal_digits hne hall, hval]
    unfold roundToDouble
    rw [if_pos hn53]
    rfl
  refine ⟨?_, ?_⟩
  · rw [hdata]
    intro h
    rcases List.mem_cons.mp h with h | h
    · exact absurd h (by decide)
    · rcases List.mem_cons.mp h with h | h
      · exact absurd h (by decide)
      · exact (hf _ h).2.2.2.1 rfl
  · rw [htrim, forEachBody_at_line, hN]
    · have hneg : (-(n : Int)) < 0 := by omega
      simp [toString2, hneg]
    · intro h
      rcases List.mem_cons.mp h with h | h
      · exact absurd h (by decide)
      · exact (hf _ h).2.1 rfl
    · intro h
      rcases List.mem_cons.mp h with h | h
      · exact absurd h (by decide)
      · exact (hf _ h).2.2.1 rfl

/-- C14, as stated, fails: `@65536` and `@-5` are not rejected; a word of 17
characters and a word that contains `-` are emitted for them. -/
theorem assemble_out_of_range_not_rejected :
    assemble "@65536" = some "10000000000000000" ∧
      assemble "@-5" = some "000000000000-101" := by
  decide

/-- C14, amended: `assemble` has no range check on an address literal.  For `v`
above 65535 (below `2^53`, where the literal is read exactly) `@v` assembles to a
word over `0`/`1` of more than 16 characters whose value is `v`; for a negative
literal `-n` (`0 < n < 2^53`) `@-n` assembles to zeros, `-`, and the binary digits
of `n`, at least 16 characters in all. -/
theorem assemble_out_of_range (v n : Nat) (hv : 65535 < v) (hv53 : v < 2 ^ 53)
    (hn : 0 < n) (hn53 : n < 2 ^ 53) :
    (∃ w : String, assemble ("@" ++ toString v) = some w ∧ 16 < w.length ∧
        isBinaryWord w = true ∧ binaryValue w = v) ∧
      (∃ (w : String) (k : Nat) (bits : List Char),
        assemble ("@-" ++ toString n) = some w ∧
        w.data = List.replicate k '0' ++ '-' :: bits ∧ 16 ≤ w.length ∧
        isBinaryWord ⟨bits⟩ = true ∧ binaryValue ⟨bits⟩ = n) := by
  constructor
  · obtain ⟨-, h2, h3, h4⟩ := literal_word v hv53
    refine ⟨_, assemble_at_literal v, ?_, h2, h3⟩
    rw [h4]
    have hs : 16 < Nat.size v := by
      rw [Nat.lt_size]
      omega
    omega
  · obtain ⟨hnl, hw⟩ := negativeLine_facts n hn hn53
    obtain ⟨-, hall, hval⟩ := toDigits_spec 2 n (le_refl 2) (by decide)
    refine ⟨_, 16 - (Nat.toDigits 2 n).length.succ, Nat.toDigits 2 n, ?_, rfl, ?_, ?_, ?_⟩
    · rw [assemble_single_line _ hnl, hw]
      rfl
    · show (List.replicate _ '0' ++ '-' :: Nat.toDigits 2 n).length ≥ 16
      simp only [List.length_append, List.length_replicate, List.length_cons]
      omega
    · simp only [isBinaryWord, List.all_eq_true]
      intro c hc
      simp only [allDigits, List.all_eq_true] at hall
      rcases mem_binary_of_digitValue (hall c hc) with rfl | rfl <;> rfl
    · rw [binaryValue_eq_digitsValue hall, hval]

theorem assemble_out_of_range_witness :
    (65535 : Nat) < 70000 ∧ (70000 : Nat) < 2 ^ 53 ∧ (0 : Nat) < 5 ∧ (5 : Nat) < 2 ^ 53 ∧
      ((∃ w : String, assemble ("@" ++ toString 70000) = some w ∧ 16 < w.length ∧
          isBinaryWord w = true ∧ binaryValue w = 70000) ∧
        (∃ (w : String) (k : Nat) (bits : List Char),
          assemble ("@-" ++ toString 5) = some w ∧
          w.data = List.replicate k '0' ++ '-' :: bits ∧ 16 ≤ w.length ∧
          isBinaryWord ⟨bits⟩ = true ∧ binaryValue ⟨bits⟩ = 5)) :=
  ⟨by decide, by decide, by decide, by decide,
    assemble_out_of_range 70000 5 (by decide) (by decide) (by decide) (by decide)⟩

/-- C20, as stated, fails: the literal `9007199254740993` (`2^53 + 1`) is read as the
double `2^53`, so the word emitted for it has the value `9007199254740992`. -/
theorem assemble_literal_value_fails :
    assemble ("@" ++ toString 9007199254740993) =
        some "100000000000000000000000000000000000000000000000000000" ∧
      binaryValue "100000000000000000000000000000000000000000000000000000" =
        9007199254740992 ∧
      ¬ ∀ v : Nat, ∃ w : String, assemble ("@" ++ toString v) = some w ∧
        isBinaryWord w = true ∧ binaryValue w = v ∧ w.length = max 16 (Nat.size v) := by
  have h : assemble ("@" ++ toString 9007199254740993) =
      some "100000000000000000000000000000000000000000000000000000" := by decide
  have hb : binaryValue "100000000000000000000000000000000000000000000000000000" =
      9007199254740992 := by decide
  refine ⟨h, hb, fun hall => ?_⟩
  obtain ⟨w, hw, -, hval, -⟩ := hall 9007199254740993
  rw [h] at hw
  cases hw
  rw [hb] at hval
  exact absurd hval (by decide)

/-- C20, amended: for every non-negative integer `v` below `2^53`, written as a
decimal literal, `@v` assembles to a word over `0`/`1` whose unsigned binary value
is `v` and whose length is the maximum of 16 and the number of binary digits of
`v`; a value above 65535 is neither rejected nor truncated: its word is longer
than 16 characters. -/
theorem assemble_literal_width (v : Nat) (hv : v < 2 ^ 53) :
    ∃ w : String, assemble ("@" ++ toString v) = some w ∧ isBinaryWord w = true ∧
      binaryValue w = v ∧ w.length = max 16 (Nat.size v) ∧
      (65535 < v → 16 < w.length) := by
  obtain ⟨-, h2, h3, h4⟩ := literal_word v hv
  refine ⟨_, assemble_at_literal v, h2, h3, h4, fun h => ?_⟩
  rw [h4]
  have hs : 16 < Nat.size v := by
    rw [Nat.lt_size]
    omega
  omega

theorem assemble_literal_width_witness :
    (100000 : Nat) < 2 ^ 53 ∧
      ∃ w : String, assemble ("@" ++ toString 100000) = some w ∧ isBinaryWord w = true ∧
        binaryValue w = 100000 ∧ w.length = max 16 (Nat.size 100000) ∧
        (65535 < 100000 → 16 < w.length) :=
  ⟨by decide, assemble_literal_width 100000 (by decide)⟩

/-! ## White space around a line -/

theorem trimChars_eq_rdropWhile (cs : List Char) :
    trimChars cs = (cs.dropWhile isWhiteSpace).rdropWhile isWhiteSpace :=
  rfl

theorem dropWhile_append_left {p x : List Char} (hp : ∀ c ∈ p, isWhiteSpace c = true) :
    (p ++ x).dropWhile isWhiteSpace = x.dropWhile isWhiteSpace := by
  induction p with
  | nil => rfl
  | cons c p ih =>
    have hc := hp c (List.mem_cons_self _ _)
    simp only [List.cons_append, List.dropWhile_cons, hc, if_true]
    exact ih fun c' hc' => hp c' (List.mem_cons_of_mem _ hc')

theorem rdropWhile_append_right {x q : List Char} (hq : ∀ c ∈ q, isWhiteSpace c = true) :
    (x ++ q).rdropWhile isWhiteSpace = x.rdropWhile isWhiteSpace := by
  unfold List.rdropWhile
  rw [List.reverse_append, dropWhile_append_left]
  intro c hc
  exact hq c (List.mem_reverse.mp hc)

theorem trimChars_append_left {p x : List Char} (hp : ∀ c ∈ p, isWhiteSpace c = true) :
    trimChars (p ++ x) = trimChars x := by
  rw [trimChars_eq_rdropWhile, trimChars_eq_rdropWhile, dropWhile_append_left hp]

theorem trimChars_append_right {x q : List Char} (hq : ∀ c ∈ q, isWhiteSpace c = true) :
    trimChars (x ++ q) = trimChars x := by
  induction x with
  | nil =>
    rw [List.nil_append, trimChars_eq_nil hq]
    rfl
  | cons c x ih =>
    by_cases hc : isWhiteSpace c = true
    · have hcs : ∀ c' ∈ [c], isWhiteSpace c' = true := by simpa using hc
      have h1 : trimChars (c :: x ++ q) = trimChars (x ++ q) :=
        @trimChars_append_left [c] (x ++ q) hcs
      have h2 : trimChars (c :: x) = trimChars x :=
        @trimChars_append_left [c] x hcs
      rw [h1, h2, ih]
    · rw [trimChars_eq_rdropWhile, trimChars_eq_rdropWhile]
      have h1 : (c :: x ++ q).dropWhile isWhiteSpace = c :: x ++ q := by
        simp [List.dropWhile_cons, hc]
      have h2 : (c :: x).dropWhile isWhiteSpace = c :: x := by
        simp [List.dropWhile_cons, hc]
      rw [h1, h2]
      exact rdropWhile_append_right hq

theorem mem_of_mem_trimChars {cs : List Char} {c : Char} (h : c ∈ trimChars cs) : c ∈ cs := by
  rw [trimChars_eq_rdropWhile] at h
  exact (List.dropWhile_sublist _).subset
    ((List.rdropWhile_prefix isWhiteSpace (cs.dropWhile isWhiteSpace)).subset h)

theorem trimChars_idempotent (cs : List Char) : trimChars (trimChars cs) = trimChars cs := by
  have key : ∀ z : List Char, z.dropWhile isWhiteSpace = z →
      (z.rdropWhile isWhiteSpace).dropWhile isWhiteSpace = z.rdropWhile isWhiteSpace := by
    intro z hz
    obtain ⟨s, hs⟩ := List.rdropWhile_prefix isWhiteSpace z
    cases hr : z.rdropWhile isWhiteSpace with
    | nil => rfl
    | cons a r =>
      rw [hr] at hs
      have ha : isWhiteSpace a = false := by
        by_contra hne
        have hat : isWhiteSpace a = true := by simpa using hne
        have hlen : ((r ++ s).dropWhile isWhiteSpace).length ≤ (r ++ s).length :=
          (List.dropWhile_sublist _).length_le
        rw [← hs, List.cons_append, List.dropWhile_cons, hat, if_pos rfl] at hz
        have := congrArg List.length hz
        simp only [List.length_cons] at this
        omega
      simp [List.dropWhile_cons, ha]
  rw [trimChars_eq_rdropWhile (trimChars cs), trimChars_eq_rdropWhile cs,
    key _ (List.dropWhile_idempotent _ _), List.rdropWhile_idempotent]

theorem trim_idempotent (s : String) : trim (trim s) = trim s := by
  unfold trim
  rw [trimChars_idempotent]

/-- C15: white space around a line is insignificant: for a text `t` without a
newline and strings `p`, `q` of spaces and tabs, `assemble (p ++ t ++ q)` is
`assemble` of `t` with its own leading and trailing white space removed. -/
theorem assemble_surrounding_whitespace (t p q : String) (ht : '\n' ∉ t.data)
    (hp : ∀ c ∈ p.data, c = ' ' ∨ c = '\t') (hq : ∀ c ∈ q.data, c = ' ' ∨ c = '\t') :
    assemble (p ++ t ++ q) = assemble (trim t) := by
  have hpw : ∀ c ∈ p.data, isWhiteSpace c = true := by
    intro c hc
    rcases hp c hc with rfl | rfl <;> decide
  have hqw : ∀ c ∈ q.data, isWhiteSpace c = true := by
    intro c hc
    rcases hq c hc with rfl | rfl <;> decide
  have hnl : '\n' ∉ (p ++ t ++ q).data := by
    simp only [String.data_append, List.mem_append, not_or]
    refine ⟨⟨fun h => ?_, ht⟩, fun h => ?_⟩
    · rcases hp _ h with h | h <;> exact absurd h (by decide)
    · rcases hq _ h with h | h <;> exact absurd h (by decide)
  have hnl' : '\n' ∉ (trim t).data := fun h => ht (mem_of_mem_trimChars h)
  have htrim : trim (p ++ t ++ q) = trim t := by
    unfold trim
    simp only [String.data_append]
    rw [trimChars_append_right hqw, trimChars_append_left hpw]
  rw [assemble_single_line _ hnl, assemble_single_line _ hnl', htrim, trim_idempotent]

theorem assemble_surrounding_whitespace_witness :
    '\n' ∉ " @0 ".data ∧ (∀ c ∈ "  \t".data, c = ' ' ∨ c = '\t') ∧
      (∀ c ∈ "\t ".data, c = ' ' ∨ c = '\t') ∧
      assemble ("  \t" ++ " @0 " ++ "\t ") = assemble (trim " @0 ") :=
  ⟨by decide, by decide, by decide,
    assemble_surrounding_whitespace " @0 " "  \t" "\t " (by decide) (by decide) (by decide)⟩

/-! ## Independence of the lines -/

theorem foldlM_forEachBody_append (ls : List String) (binary : List String) :
    ls.foldlM forEachBody binary =
      (ls.foldlM forEachBody []).map fun words => binary ++ words := by
  induction ls generalizing binary with
  | nil => simp
  | cons l ls ih =>
    simp only [List.foldlM_cons]
    rw [forEachBody_append binary l]
    cases forEachBody [] l with
    | none => rfl
    | some w =>
      simp only [Option.map_some', Option.bind_eq_bind, Option.some_bind]
      rw [ih (binary ++ w), ih w]
      cases ls.foldlM forEachBody [] with
      | none => rfl
      | some r => simp

theorem emittedWords_intercalate (ls : List String) (hnl : ∀ l ∈ ls, '\n' ∉ l.data) :
    emittedWords ("\n".intercalate ls) = (ls.map trim).foldlM forEachBody [] := by
  by_cases hne : ls = []
  · subst hne
    decide
  · unfold emittedWords
    rw [split_intercalate ls hne hnl]

/-- C18: each line is encoded independently of the others: for line texts `xs` and
`ys` without newlines, valid or not, the words emitted for `xs` followed by `ys` are
the words emitted for `xs` followed by the words emitted for `ys`. -/
theorem emittedWords_append (xs ys : List String) (hx : ∀ l ∈ xs, '\n' ∉ l.data)
    (hy : ∀ l ∈ ys, '\n' ∉ l.data) :
    emittedWords ("\n".intercalate (xs ++ ys)) =
      (emittedWords ("\n".intercalate xs)).bind fun a =>
        (emittedWords ("\n".intercalate ys)).map fun b => a ++ b := by
  have hxy : ∀ l ∈ xs ++ ys, '\n' ∉ l.data := by
    intro l hl
    rcases List.mem_append.mp hl with h | h
    · exact hx l h
    · exact hy l h
  rw [emittedWords_intercalate _ hxy, emittedWords_intercalate _ hx,
    emittedWords_intercalate _ hy, List.map_append, List.foldlM_append]
  cases (xs.map trim).foldlM forEachBody [] with
  | none => rfl
  | some a =>
    simp only [Option.bind_eq_bind, Option.some_bind]
    exact foldlM_forEachBody_append _ a

theorem emittedWords_append_witness :
    (∀ l ∈ ["@1", "nonsense"], '\n' ∉ l.data) ∧ (∀ l ∈ ["D=A;JMP", " M=D "], '\n' ∉ l.data) ∧
      emittedWords ("\n".intercalate (["@1", "nonsense"] ++ ["D=A;JMP", " M=D "])) =
        (emittedWords ("\n".intercalate ["@1", "nonsense"])).bind fun a =>
          (emittedWords ("\n".intercalate ["D=A;JMP", " M=D "])).map fun b => a ++ b :=
  ⟨by decide, by decide,
    emittedWords_append ["@1", "nonsense"] ["D=A;JMP", " M=D "] (by decide) (by decide)⟩

/-! ## Address words and computation words -/

theorem head_append_of_head {a b : String} {c : Char} (h : a.data.head? = some c) :
    (a ++ b).data.head? = some c := by
  rw [String.data_append]
  cases hd : a.data with
  | nil => rw [hd] at h; exact absurd h (by simp)
  | cons x xs =>
    rw [hd] at h
    simpa using h

/-! ## Injectivity of the computation encoding -/

theorem comps_injective_table : ∀ q ∈ comps, ∀ q' ∈ comps,
    q.1.data.contains 'M' = q'.1.data.contains 'M' → q.2 = q'.2 → q.1 = q'.1 := by
  decide

theorem lookupComps_injective_table : ∀ q ∈ comps, ∀ q' ∈ comps,
    lookupComps q.1 = lookupComps q'.1 → q.1 = q'.1 := by
  decide

theorem pattern_length_table :
    (∀ q ∈ comps, q.2.data.length = 6) ∧
      (∀ p ∈ lookupDest, p.2.data.length = 3 ∧ p.2 ≠ "000") ∧
      (∀ p ∈ lookupJump, p.2.data.length = 3 ∧ p.2 ≠ "000") := by
  decide

theorem word_parts_eq {s s' cb cb' x x' y y' : String}
    (hs : s.data.length = s'.data.length) (hc : cb.data.length = cb'.data.length)
    (hx : x.data.length = x'.data.length)
    (h : "111" ++ s ++ cb ++ x ++ y = "111" ++ s' ++ cb' ++ x' ++ y') :
    s = s' ∧ cb = cb' ∧ x = x' ∧ y = y' := by
  have hd := congrArg String.data h
  simp only [String.data_append, List.append_assoc] at hd
  have h1 := List.append_cancel_left hd
  obtain ⟨e1, h2⟩ := List.append_inj h1 hs
  obtain ⟨e2, h3⟩ := List.append_inj h2 hc
  obtain ⟨e3, e4⟩ := List.append_inj h3 hx
  exact ⟨String.ext e1, String.ext e2, String.ext e3, String.ext e4⟩

theorem selector_length (c c' : String) :
    (if 'M' ∈ c.data then "1" else "0").data.length =
      (if 'M' ∈ c'.data then "1" else "0").data.length := by
  split_ifs <;> rfl

theorem selector_eq {c c' : String}
    (h : (if 'M' ∈ c.data then "1" else "0") = (if 'M' ∈ c'.data then "1" else "0")) :
    c.data.contains 'M' = c'.data.contains 'M' := by
  by_cases h1 : 'M' ∈ c.data <;> by_cases h2 : 'M' ∈ c'.data <;> simp [h1, h2] at h ⊢

/-- C19: the encoding of computation lines is injective: two distinct lines, each
`dest=comp` or `comp;jump` with table mnemonics, assemble to two different
16-character words; in particular `lookupComps` is injective on the computation
mnemonics of `comps`. -/
theorem assemble_injective_on_computation_lines (l₁ l₂ : String)
    (h₁ : IsComputationLine l₁) (h₂ : IsComputationLine l₂) (hne : l₁ ≠ l₂) :
    (∃ w₁ w₂ : String, assemble l₁ = some w₁ ∧ assemble l₂ = some w₂ ∧
        w₁.length = 16 ∧ w₂.length = 16 ∧ w₁ ≠ w₂) ∧
      (∀ c₁ ∈ comps.map Prod.fst, ∀ c₂ ∈ comps.map Prod.fst,
        lookupComps c₁ = lookupComps c₂ → c₁ = c₂) ∧
      (comps.map Prod.fst).length = 28 := by
  obtain ⟨hlc, hld, hlj⟩ := pattern_length_table
  refine ⟨?_, ?_, rfl⟩
  · rcases h₁ with ⟨d, c, hd, hc, rfl⟩ | ⟨c, j, hc, hj, rfl⟩ <;>
      rcases h₂ with ⟨d', c', hd', hc', rfl⟩ | ⟨c', j', hc', hj', rfl⟩
    · obtain ⟨p, hp, rfl⟩ := List.mem_map.mp hd
      obtain ⟨q, hq, rfl⟩ := List.mem_map.mp hc
      obtain ⟨p', hp', rfl⟩ := List.mem_map.mp hd'
      obtain ⟨q', hq', rfl⟩ := List.mem_map.mp hc'
      obtain ⟨a1, a2⟩ := destComp_table p hp q hq
      obtain ⟨b1, b2⟩ := destComp_table p' hp' q' hq'
      refine ⟨_, _, a1, b1, a2, b2, fun heq => hne ?_⟩
      obtain ⟨e1, e2, e3, -⟩ := word_parts_eq (selector_length _ _)
        ((hlc q hq).trans (hlc q' hq').symm) ((hld p hp).1.trans (hld p' hp').1.symm) heq
      rw [comps_injective_table q hq q' hq' (selector_eq e1) e2,
        lookupDest_injective_table p hp p' hp' e3]
    · obtain ⟨p, hp, rfl⟩ := List.mem_map.mp hd
      obtain ⟨q, hq, rfl⟩ := List.mem_map.mp hc
      obtain ⟨q', hq', rfl⟩ := List.mem_map.mp hc'
      obtain ⟨p', hp', rfl⟩ := List.mem_map.mp hj'
      obtain ⟨a1, a2⟩ := destComp_table p hp q hq
      obtain ⟨b1, b2⟩ := compJump_table q' hq' p' hp'
      refine ⟨_, _, a1, b1, a2, b2, fun heq => ?_⟩
      obtain ⟨-, -, e3, -⟩ := word_parts_eq (selector_length _ _)
        ((hlc q hq).trans (hlc q' hq').symm)
        (show p.2.data.length = "000".data.length from (hld p hp).1) heq
      exact (hld p hp).2 e3
    · obtain ⟨q, hq, rfl⟩ := List.mem_map.mp hc
      obtain ⟨p, hp, rfl⟩ := List.mem_map.mp hj
      obtain ⟨p', hp', rfl⟩ := List.mem_map.mp hd'
      obtain ⟨q', hq', rfl⟩ := List.mem_map.mp hc'
      obtain ⟨a1, a2⟩ := compJump_table q hq p hp
      obtain ⟨b1, b2⟩ := destComp_table p' hp' q' hq'
      refine ⟨_, _, a1, b1, a2, b2, fun heq => ?_⟩
      obtain ⟨-, -, e3, -⟩ := word_parts_eq (selector_length _ _)
        ((hlc q hq).trans (hlc q' hq').symm)
        (show "000".data.length = p'.2.data.length from (hld p' hp').1.symm) heq
      exact (hld p' hp').2 e3.symm
    · obtain ⟨q, hq, rfl⟩ := List.mem_map.mp hc
      obtain ⟨p, hp, rfl⟩ := List.mem_map.mp hj
      obtain ⟨q', hq', rfl⟩ := List.mem_map.mp hc'
      obtain ⟨p', hp', rfl⟩ := List.mem_map.mp hj'
      obtain ⟨a1, a2⟩ := compJump_table q hq p hp
      obtain ⟨b1, b2⟩ := compJump_table q' hq' p' hp'
      refine ⟨_, _, a1, b1, a2, b2, fun heq => hne ?_⟩
      obtain ⟨e1, e2, -, e4⟩ := word_parts_eq (selector_length _ _)
        ((hlc q hq).trans (hlc q' hq').symm) rfl heq
      rw [comps_injective_table q hq q' hq' (selector_eq e1) e2,
        lookupJump_injective_table p hp p' hp' e4]
  · intro c₁ h1 c₂ h2 heq
    obtain ⟨q, hq, rfl⟩ := List.mem_map.mp h1
    obtain ⟨q', hq', rfl⟩ := List.mem_map.mp h2
    exact lookupComps_injective_table q hq q' hq' heq

theorem assemble_injective_on_computation_lines_witness :
    IsComputationLine "D=M" ∧ IsComputationLine "M;JMP" ∧ "D=M" ≠ "M;JMP" ∧
      ((∃ w₁ w₂ : String, assemble "D=M" = some w₁ ∧ assemble "M;JMP" = some w₂ ∧
          w₁.length = 16 ∧ w₂.length = 16 ∧ w₁ ≠ w₂) ∧
        (∀ c₁ ∈ comps.map Prod.fst, ∀ c₂ ∈ comps.map Prod.fst,
          lookupComps c₁ = lookupComps c₂ → c₁ = c₂) ∧
        (comps.map Prod.fst).length = 28) :=
  have h1 : IsComputationLine "D=M" := Or.inl ⟨"D", "M", by decide, by decide, by decide⟩
  have h2 : IsComputationLine "M;JMP" := Or.inr ⟨"M", "JMP", by decide, by decide, by decide⟩
  ⟨h1, h2, by decide, assemble_injective_on_computation_lines "D=M" "M;JMP" h1 h2 (by decide)⟩

/-! ## The control bits of `comps` on the ALU -/

theorem not16_eq_sub {x : Nat} (hx : x < 2 ^ 16) : not16 x = 65535 - x := by
  unfold not16
  apply Nat.eq_of_testBit_eq
  intro i
  have hsub : 65535 - x = 2 ^ 16 - (x + 1) := by omega
  rw [Nat.testBit_xor, hsub, Nat.testBit_two_pow_sub_succ hx, Nat.testBit_two_pow_sub_one]
  by_cases hi : i < 16
  · simp [hi]
  · have hxi : x.testBit i = false :=
      Nat.testBit_lt_two_pow (lt_of_lt_of_le hx (Nat.pow_le_pow_right (by decide) (by omega)))
    simp [hi, hxi]

theorem not16_mod (z : Nat) : not16 (z % 65536) = 65535 - z % 65536 :=
  not16_eq_sub (Nat.mod_lt _ (by decide))

theorem and_ones {x : Nat} (hx : x < 2 ^ 16) : x &&& 65535 = x := by
  have h := Nat.and_pow_two_sub_one_eq_mod x 16
  rw [Nat.mod_eq_of_lt hx] at h
  exact h

theorem ones_and {y : Nat} (hy : y < 2 ^ 16) : 65535 &&& y = y := by
  rw [Nat.and_comm]
  exact and_ones hy

theorem not16_and_not16 {x y : Nat} (hx : x < 2 ^ 16) (hy : y < 2 ^ 16) :
    not16 (not16 x &&& not16 y) = x ||| y := by
  unfold not16
  apply Nat.eq_of_testBit_eq
  intro i
  simp only [Nat.testBit_xor, Nat.testBit_and, Nat.testBit_or, Nat.testBit_two_pow_sub_one]
  by_cases hi : i < 16
  · cases x.testBit i <;> cases y.testBit i <;> simp [hi]
  · have hxi : x.testBit i = false :=
      Nat.testBit_lt_two_pow (lt_of_lt_of_le hx (Nat.pow_le_pow_right (by decide) (by omega)))
    have hyi : y.testBit i = false :=
      Nat.testBit_lt_two_pow (lt_of_lt_of_le hy (Nat.pow_le_pow_right (by decide) (by omega)))
    simp [hi, hxi, hyi]

/-- C17: for every entry of `comps`, the ALU rule under the entry's six control
bits `zD nD zA nA f no`, on 16-bit values `x` (D) and `y` (A, or M in the M forms),
outputs the value the mnemonic denotes, modulo `2^16`. -/
theorem comps_alu (c bits : String) (h : comps.lookup c = some bits) (x y : Nat)
    (hx : x < 2 ^ 16) (hy : y < 2 ^ 16) :
    ∃ (out : Nat) (v : Int), aluOfPattern bits x y = some out ∧ denotes c x y = some v ∧
      (out : Int) = v % 2 ^ 16 := by
  have hm := mem_of_lookup h
  have hx' : x < 65536 := hx
  have hy' : y < 65536 := hy
  have h0 : not16 0 = 65535 := rfl
  have h1 : not16 65534 = 1 := rfl
  have hnx := not16_eq_sub hx
  have hny := not16_eq_sub hy
  have hand : x &&& y < 65536 := lt_of_le_of_lt Nat.and_le_left hx'
  have hor : x ||| y < 65536 := Nat.or_lt_two_pow hx hy
  have hdm : not16 ((65535 - x) &&& (65535 - y)) = x ||| y := by
    rw [← hnx, ← hny]
    exact not16_and_not16 hx hy
  simp only [comps, List.mem_cons, Prod.mk.injEq, List.mem_singleton, List.not_mem_nil,
    or_false] at hm
  rcases hm with ⟨rfl, rfl⟩ | ⟨rfl, rfl⟩ | ⟨rfl, rfl⟩ | ⟨rfl, rfl⟩ | ⟨rfl, rfl⟩ | ⟨rfl, rfl⟩ |
    ⟨rfl, rfl⟩ | ⟨rfl, rfl⟩ | ⟨rfl, rfl⟩ | ⟨rfl, rfl⟩ | ⟨rfl, rfl⟩ | ⟨rfl, rfl⟩ | ⟨rfl, rfl⟩ |
    ⟨rfl, rfl⟩ | ⟨rfl, rfl⟩ | ⟨rfl, rfl⟩ | ⟨rfl, rfl⟩ | ⟨rfl, rfl⟩ | ⟨rfl, rfl⟩ | ⟨rfl, rfl⟩ |
    ⟨rfl, rfl⟩ | ⟨rfl, rfl⟩ | ⟨rfl, rfl⟩ | ⟨rfl, rfl⟩ | ⟨rfl, rfl⟩ | ⟨rfl, rfl⟩ | ⟨rfl, rfl⟩ |
    ⟨rfl, rfl⟩
  all_goals
    refine ⟨_, _, rfl, rfl, ?_⟩
    simp [alu, h0, h1, hnx, hny, and_ones hx, ones_and hy, not16_mod, hdm]
    try omega

theorem comps_alu_witness :
    comps.lookup "D-A" = some "010011" ∧ (3 : Nat) < 2 ^ 16 ∧ (5 : Nat) < 2 ^ 16 ∧
      ∃ (out : Nat) (v : Int), aluOfPattern "010011" 3 5 = some out ∧
        denotes "D-A" 3 5 = some v ∧ (out : Int) = v % 2 ^ 16 :=
  ⟨by decide, by decide, by decide, comps_alu "D-A" "010011" (by decide) 3 5 (by decide)
    (by decide)⟩

/-! ### Agreement of the two treatments of inherited properties -/

theorem getPropWith_of_getProp (inherited : String → String) {obj : List (String × String)}
    {key v : String} (h : getProp obj key = some v) : getPropWith inherited obj key = v := by
  unfold getProp at h
  unfold getPropWith
  cases hl : obj.lookup key with
  | some u =>
    rw [hl] at h
    simpa using h
  | none =>
    rw [hl] at h
    by_cases hk : key ∈ objectPrototypeKeys
    · simp [hk] at h
    · simpa [hk] using h

theorem lookupCompsWith_of_lookupComps (inherited : String → String) {query v : String}
    (h : lookupComps query = some v) : lookupCompsWith inherited query = v := by
  unfold lookupComps at h
  unfold lookupCompsWith
  cases hg : getProp comps query with
  | none => simp [hg] at h
  | some bits =>
    rw [getPropWith_of_getProp inherited hg]
    by_cases hM : includes query 'M' = true
    · simpa [hM, hg] using h
    · simpa [hM, hg] using h

theorem ifAssignWith_of_ifAssign (inherited : String → String) {line : String}
    {st st' : String × List String} (h : ifAssign line st = some st') :
    ifAssignWith inherited line st = some st' := by
  by_cases he : includes line '=' = true
  · obtain ⟨d, c, t, hdc⟩ := split_of_includes line '=' he
    rw [ifAssign_of_split he hdc] at h
    unfold ifAssignWith
    rw [if_pos he, hdc]
    cases hl : lookupComps c with
    | none => simp [hl] at h
    | some cb =>
      cases hg : getProp lookupDest d with
      | none => simp [hl, hg] at h
      | some db =>
        rw [hl, hg] at h
        simp only [Option.some_bind, Option.map_some', Option.some.injEq] at h
        rw [← h]
        simp only [lookupCompsWith_of_lookupComps inherited hl,
          getPropWith_of_getProp inherited hg]
  · have he' : includes line '=' = false := by simpa using he
    rw [ifAssign_of_not_includes he'] at h
    unfold ifAssignWith
    simp [he', h]

theorem ifJumpWith_of_ifJump (inherited : String → String) {line : String}
    {st st' : String × List String} (h : ifJump line st = some st') :
    ifJumpWith inherited line st = some st' := by
  by_cases he : includes line ';' = true
  · obtain ⟨o, j, t, hoj⟩ := split_of_includes line ';' he
    rw [ifJump_of_split he hoj] at h
    unfold ifJumpWith
    rw [if_pos he, hoj]
    cases hl : lookupComps o with
    | none => simp [hl] at h
    | some ob =>
      cases hg : getProp lookupJump j with
      | none => simp [hl, hg] at h
      | some jb =>
        rw [hl, hg] at h
        simp only [Option.some_bind, Option.map_some', Option.some.injEq] at h
        rw [← h]
        simp only [lookupCompsWith_of_lookupComps inherited hl,
          getPropWith_of_getProp inherited hg]
  · have he' : includes line ';' = false := by simpa using he
    rw [ifJump_of_not_includes he'] at h
    unfold ifJumpWith
    simp [he', h]

theorem forEachBodyWith_of_forEachBody (inherited : String → String) {binary ws : List String}
    {line : String} (h : forEachBody binary line = some ws) :
    forEachBodyWith inherited binary line = some ws := by
  unfold forEachBody at h
  unfold forEachBodyWith
  cases h0 : ifAddress line binary with
  | none => simp [h0] at h
  | some b =>
    rw [h0] at h
    simp only [Option.bind_eq_bind, Option.some_bind] at h ⊢
    cases h1 : ifAssign line ("111", b) with
    | none => simp [h1] at h
    | some st =>
      rw [h1] at h
      simp only [Option.some_bind] at h
      rw [ifAssignWith_of_ifAssign inherited h1]
      simp only [Option.some_bind]
      cases h2 : ifJump line st with
      | none => simp [h2] at h
      | some st' =>
        rw [h2] at h
        rw [ifJumpWith_of_ifJump inherited h2]
        exact h

theorem foldlM_forEachBodyWith_of_forEachBody (inherited : String → String)
    (ls : List String) {binary ws : List String}
    (h : ls.foldlM forEachBody binary = some ws) :
    ls.foldlM (forEachBodyWith inherited) binary = some ws := by
  induction ls generalizing binary with
  | nil => simpa using h
  | cons l ls ih =>
    simp only [List.foldlM_cons] at h ⊢
    cases hb : forEachBody binary l with
    | none => simp [hb] at h
    | some b =>
      rw [hb] at h
      rw [forEachBodyWith_of_forEachBody inherited hb]
      simp only [Option.bind_eq_bind, Option.some_bind] at h ⊢
      exact ih h

theorem emittedWordsWith_of_emittedWords (inherited : String → String) {a : String}
    {ws : List String} (h : emittedWords a = some ws) :
    emittedWordsWith inherited a = some ws :=
  foldlM_forEachBodyWith_of_forEachBody inherited _ h

theorem emittedWordsWith_single_line (inherited : String → String) (l : String)
    (h : '\n' ∉ l.data) :
    emittedWordsWith inherited l = forEachBodyWith inherited [] (trim l) := by
  simp only [emittedWordsWith, split_newline_single l h, List.map_cons, List.map_nil,
    List.foldlM_cons, List.foldlM_nil]
  cases forEachBodyWith inherited [] (trim l) <;> rfl

/-! ### Computation words begin with `1` -/

theorem ifAssignWith_words (inherited : String → String) (line : String)
    (st : String × List String) (hs : st.1.data.head? = some '1') :
    ∃ (st' : String × List String) (extra : List String),
      ifAssignWith inherited line st = some st' ∧ st'.1.data.head? = some '1' ∧
      st'.2 = st.2 ++ extra ∧ (includes line '=' = true → extra ≠ []) ∧
      ∀ w ∈ extra, w.data.head? = some '1' := by
  by_cases he : includes line '=' = true
  · obtain ⟨d, c, t, hdc⟩ := split_of_includes line '=' he
    have hw : (st.1 ++ lookupCompsWith inherited c ++ getPropWith inherited lookupDest d ++
        "000").data.head? = some '1' :=
      head_append_of_head (head_append_of_head (head_append_of_head hs))
    refine ⟨(st.1 ++ lookupCompsWith inherited c ++ getPropWith inherited lookupDest d ++ "000",
      st.2 ++ [st.1 ++ lookupCompsWith inherited c ++ getPropWith inherited lookupDest d ++
        "000"]), [st.1 ++ lookupCompsWith inherited c ++ getPropWith inherited lookupDest d ++
        "000"], ?_, hw, rfl, fun _ => by simp, ?_⟩
    · unfold ifAssignWith
      rw [if_pos he, hdc]
    · intro w hmem
      rw [List.mem_singleton.mp hmem]
      exact hw
  · have he' : includes line '=' = false := by simpa using he
    refine ⟨st, [], ?_, hs, by simp, fun h' => absurd h' he, fun w hw => by simp at hw⟩
    unfold ifAssignWith
    simp [he']

theorem ifJumpWith_words (inherited : String → String) (line : String)
    (st : String × List String) (hs : st.1.data.head? = some '1') :
    ∃ (st' : String × List String) (extra : List String),
      ifJumpWith inherited line st = some st' ∧
      st'.2 = st.2 ++ extra ∧ (includes line ';' = true → extra ≠ []) ∧
      ∀ w ∈ extra, w.data.head? = some '1' := by
  by_cases he : includes line ';' = true
  · obtain ⟨o, j, t, hoj⟩ := split_of_includes line ';' he
    have hw : (st.1 ++ lookupCompsWith inherited o ++ "000" ++
        getPropWith inherited lookupJump j).data.head? = some '1' :=
      head_append_of_head (head_append_of_head (head_append_of_head hs))
    refine ⟨(st.1 ++ lookupCompsWith inherited o ++ "000" ++ getPropWith inherited lookupJump j,
      st.2 ++ [st.1 ++ lookupCompsWith inherited o ++ "000" ++
        getPropWith inherited lookupJump j]), [st.1 ++ lookupCompsWith inherited o ++ "000" ++
        getPropWith inherited lookupJump j], ?_, rfl, fun _ => by simp, ?_⟩
    · unfold ifJumpWith
      rw [if_pos he, hoj]
    · intro w hmem
      rw [List.mem_singleton.mp hmem]
      exact hw
  · have he' : includes line ';' = false := by simpa using he
    refine ⟨st, [], ?_, by simp, fun h' => absurd h' he, fun w hw => by simp at hw⟩
    unfold ifJumpWith
    simp [he']

theorem computation_words (inherited : String → String) {line : String}
    (hat : line.data.head? ≠ some '@') :
    ∃ ws : List String, forEachBodyWith inherited [] line = some ws ∧
      (includes line '=' = true ∨ includes line ';' = true → ws ≠ []) ∧
      ∀ w ∈ ws, w.data.head? = some '1' := by
  obtain ⟨st, e1, h1, hs, he1, hn1, hw1⟩ := ifAssignWith_words inherited line ("111", []) rfl
  obtain ⟨st', e2, h2, he2, hn2, hw2⟩ := ifJumpWith_words inherited line st hs
  refine ⟨e1 ++ e2, ?_, fun hsep => ?_, fun w hw => ?_⟩
  · unfold forEachBodyWith
    rw [ifAddress_of_not_at hat]
    simp only [Option.bind_eq_bind, Option.some_bind]
    rw [h1]
    simp only [Option.some_bind]
    rw [h2]
    simp only [Option.some_bind, Option.pure_def, Option.some.injEq]
    rw [he2, he1]
    rfl
  · rcases hsep with hsep | hsep
    · intro hnil
      exact hn1 hsep (List.append_eq_nil.mp hnil).1
    · intro hnil
      exact hn2 hsep (List.append_eq_nil.mp hnil).2
  · rcases List.mem_append.mp hw with hw | hw
    · exact hw1 w hw
    · exact hw2 w hw

theorem ifAssign_isSome {line : String} (st : String × List String)
    (hp : ∀ part ∈ split line '=', part ∉ objectPrototypeKeys) :
    ∃ st', ifAssign line st = some st' := by
  by_cases he : includes line '=' = true
  · obtain ⟨d, c, t, hdc⟩ := split_of_includes line '=' he
    have hd : d ∉ objectPrototypeKeys := hp d (by rw [hdc]; simp)
    have hc : c ∉ objectPrototypeKeys := hp c (by rw [hdc]; simp)
    rw [ifAssign_of_split he hdc, lookupComps_eq_propText hc,
      getProp_eq_propText lookupDest hd]
    exact ⟨_, rfl⟩
  · have he' : includes line '=' = false := by simpa using he
    exact ⟨st, ifAssign_of_not_includes he' st⟩

theorem ifJump_isSome {line : String} (st : String × List String)
    (hp : ∀ part ∈ split line ';', part ∉ objectPrototypeKeys) :
    ∃ st', ifJump line st = some st' := by
  by_cases he : includes line ';' = true
  · obtain ⟨o, j, t, hoj⟩ := split_of_includes line ';' he
    have ho : o ∉ objectPrototypeKeys := hp o (by rw [hoj]; simp)
    have hj : j ∉ objectPrototypeKeys := hp j (by rw [hoj]; simp)
    rw [ifJump_of_split he hoj, lookupComps_eq_propText ho,
      getProp_eq_propText lookupJump hj]
    exact ⟨_, rfl⟩
  · have he' : includes line ';' = false := by simpa using he
    exact ⟨st, ifJump_of_not_includes he' st⟩

theorem forEachBody_isSome {line : String} (hat : line.data.head? ≠ some '@')
    (hp : ∀ part ∈ split line '=' ++ split line ';', part ∉ objectPrototypeKeys) :
    ∃ ws, forEachBody [] line = some ws := by
  obtain ⟨st, h1⟩ := @ifAssign_isSome line ("111", [])
    fun part h => hp part (List.mem_append_left _ h)
  obtain ⟨st', h2⟩ := @ifJump_isSome line st
    fun part h => hp part (List.mem_append_right _ h)
  refine ⟨st'.2, ?_⟩
  unfold forEachBody
  rw [ifAddress_of_not_at hat]
  simp only [Option.bind_eq_bind, Option.some_bind]
  rw [h1]
  simp only [Option.some_bind]
  rw [h2]
  rfl

/-- C11: for an address `v` in `0..32767` the word emitted for `@v` begins with
`0`.  For a line that, once trimmed, does not start with `@` and includes `=` or
`;`, words are emitted, at least one, whatever text the inherited properties have;
each of them begins with `1`, hence none of them is the word of `@v`.  They are the
words `emittedWords` gives whenever it gives any, and it does give them when no part
cut out by the separators names an inherited property. -/
theorem address_word_differs_from_computation_words (v : Nat) (hv : v ≤ 32767)
    (l : String) (hnl : '\n' ∉ l.data) (hat : (trim l).data.head? ≠ some '@')
    (hsep : includes (trim l) '=' = true ∨ includes (trim l) ';' = true)
    (inherited : String → String) :
    ∃ (w : String) (ws : List String),
      emittedWords ("@" ++ toString v) = some [w] ∧ w.data.head? = some '0' ∧
      emittedWordsWith inherited l = some ws ∧ ws ≠ [] ∧
      (∀ w' ∈ ws, w'.data.head? = some '1' ∧ w' ≠ w) ∧
      (∀ ws' : List String, emittedWords l = some ws' → ws' = ws) ∧
      ((∀ part ∈ split (trim l) '=' ++ split (trim l) ';', part ∉ objectPrototypeKeys) →
        emittedWords l = some ws) := by
  obtain ⟨h1, -, h3⟩ := addressLine_facts v
  obtain ⟨-, -, -, h4⟩ := address_word v (by omega)
  have hhead : (padStart (toString2 (roundToDouble v)) 16 '0').data.head? = some '0' :=
    h4.mpr (by omega)
  obtain ⟨ws, hws, hne, hall⟩ := computation_words inherited hat
  have hW : emittedWordsWith inherited l = some ws := by
    rw [emittedWordsWith_single_line inherited l hnl, hws]
  have hagree : ∀ ws' : List String, emittedWords l = some ws' → ws' = ws := by
    intro ws' h'
    have h'' := emittedWordsWith_of_emittedWords inherited h'
    rw [hW] at h''
    exact (Option.some.inj h'').symm
  refine ⟨_, ws, by rw [emittedWords_single_line _ h1, h3], hhead, hW, hne hsep,
    fun w' hw' => ⟨hall w' hw', fun heq => ?_⟩, hagree, fun hp => ?_⟩
  · have h1' := hall w' hw'
    rw [heq, hhead] at h1'
    exact absurd h1' (by decide)
  · obtain ⟨ws', h'⟩ := forEachBody_isSome hat hp
    have he : emittedWords l = some ws' := by
      rw [emittedWords_single_line l hnl, h']
    rw [he, hagree ws' he]

theorem address_word_differs_from_computation_words_witness :
    ((42 : Nat) ≤ 32767 ∧ '\n' ∉ " D=M ".data ∧ (trim " D=M ").data.head? ≠ some '@' ∧
        (includes (trim " D=M ") '=' = true ∨ includes (trim " D=M ") ';' = true) ∧
        ∃ (w : String) (ws : List String),
          emittedWords ("@" ++ toString 42) = some [w] ∧ w.data.head? = some '0' ∧
          emittedWordsWith (fun _ => "") " D=M " = some ws ∧ ws ≠ [] ∧
          (∀ w' ∈ ws, w'.data.head? = some '1' ∧ w' ≠ w) ∧
          (∀ ws' : List String, emittedWords " D=M " = some ws' → ws' = ws) ∧
          ((∀ part ∈ split (trim " D=M ") '=' ++ split (trim " D=M ") ';',
              part ∉ objectPrototypeKeys) →
            emittedWords " D=M " = some ws)) ∧
      (∀ part ∈ split (trim " D=M ") '=' ++ split (trim " D=M ") ';',
        part ∉ objectPrototypeKeys) ∧
      emittedWords " D=M " = some ["1111110000010000"] ∧
      ((0 : Nat) ≤ 32767 ∧ '\n' ∉ "toString=D".data ∧
        (trim "toString=D").data.head? ≠ some '@' ∧
        (includes (trim "toString=D") '=' = true ∨
          includes (trim "toString=D") ';' = true) ∧
        ∃ (w : String) (ws : List String),
          emittedWords ("@" ++ toString 0) = some [w] ∧ w.data.head? = some '0' ∧
          emittedWordsWith (fun key => "function " ++ key ++ "() \x7b [native code] \x7d")
            "toString=D" = some ws ∧ ws ≠ [] ∧
          (∀ w' ∈ ws, w'.data.head? = some '1' ∧ w' ≠ w) ∧
          (∀ ws' : List String, emittedWords "toString=D" = some ws' → ws' = ws) ∧
          ((∀ part ∈ split (trim "toString=D") '=' ++ split (trim "toString=D") ';',
              part ∉ objectPrototypeKeys) →
            emittedWords "toString=D" = some ws)) ∧
      emittedWordsWith (fun key => "function " ++ key ++ "() \x7b [native code] \x7d")
          "toString=D" =
        some ["1110001100function toString() \x7b [native code] \x7d000"] :=
  ⟨⟨by decide, by decide, by decide, by decide,
      address_word_differs_from_computation_words 42 (by decide) " D=M " (by decide)
        (by decide) (by decide) (fun _ => "")⟩,
    by decide, by decide,
    ⟨by decide, by decide, by decide, by decide,
      address_word_differs_from_computation_words 0 (by decide) "toString=D" (by decide)
        (by decide) (by decide) (fun key => "function " ++ key ++ "() \x7b [native code] \x7d")⟩,
    by decide⟩

end Assembler
